import Mathlib

/-!
Verification of the `goalgutil` cache replacement policies (package `lru`).

The Go sources model caches as a doubly linked list of key/value entries
(`container/list`) together with a hash index from keys to list elements.
Here a list of `Entry` (front first) stands for the linked list, and a list
of keys (no duplicates, mirroring the Go map's key set) stands for the index.
Go `map` deletion and insertion become `List.erase` and cons; removing or
moving a list element through its index handle becomes removal of the unique
entry carrying that key (uniqueness is the index/list consistency invariant
proved below).  Keys and values are `Nat`; `MaxEntries` and the LRU-K
threshold are `Int`, as the Go `int` fields can be negative.
-/

/-- The key/value pair stored inside the ordered structures
(`cm.Entry` in `macros/cache_macro`, `entry` in `lru.go`). -/
structure Entry where
  k : Nat
  v : Nat
deriving DecidableEq, Repr

/-- Keys of the entries of a linked list, front first. -/
def keysOf (l : List Entry) : List Nat :=
  l.map Entry.k

/-- Removal of the first entry carrying key `k` : the effect of
`ll.Remove(ee)` when `ee` is the element the index maps `k` to. -/
def eraseKey (k : Nat) : List Entry → List Entry
  | [] => []
  | e :: es => if e.k = k then es else e :: eraseKey k es

/-- The entry the index handle for `k` dereferences to. -/
def findKey (k : Nat) (l : List Entry) : Option Entry :=
  l.find? (fun e => e.k == k)

@[simp] theorem keysOf_nil : keysOf [] = [] := rfl

@[simp] theorem keysOf_cons (e : Entry) (l : List Entry) :
    keysOf (e :: l) = e.k :: keysOf l := rfl

@[simp] theorem keysOf_append (l₁ l₂ : List Entry) :
    keysOf (l₁ ++ l₂) = keysOf l₁ ++ keysOf l₂ := by
  simp [keysOf]

@[simp] theorem length_keysOf (l : List Entry) : (keysOf l).length = l.length := by
  simp [keysOf]

theorem keysOf_eraseKey (k : Nat) (l : List Entry) :
    keysOf (eraseKey k l) = (keysOf l).erase k := by
  induction l with
  | nil => rfl
  | cons e es ih =>
    by_cases h : e.k = k
    · simp [eraseKey, h, List.erase_cons_head]
    · simp [eraseKey, h, List.erase_cons_tail, ih, Ne.symm h]

theorem length_eraseKey_of_mem {k : Nat} {l : List Entry} (h : k ∈ keysOf l) :
    (eraseKey k l).length = l.length - 1 := by
  induction l with
  | nil => simp [keysOf] at h
  | cons e es ih =>
    by_cases he : e.k = k
    · simp [eraseKey, he]
    · have hm : k ∈ keysOf es := by
        rcases (by simpa using h) with h1 | h2
        · exact absurd h1.symm he
        · exact h2
      have hlen : 0 < es.length := by
        cases es with
        | nil => simp [keysOf] at hm
        | cons a t => simp
      simp [eraseKey, he, ih hm]
      omega

theorem length_eraseKey_le (k : Nat) (l : List Entry) :
    (eraseKey k l).length ≤ l.length := by
  induction l with
  | nil => simp [eraseKey]
  | cons e es ih =>
    by_cases he : e.k = k
    · simp [eraseKey, he]
    · simp [eraseKey, he]
      omega

theorem findKey_eq_some_of_mem {k : Nat} {l : List Entry} (h : k ∈ keysOf l) :
    ∃ e, findKey k l = some e ∧ e.k = k ∧ e ∈ l := by
  induction l with
  | nil => simp [keysOf] at h
  | cons a es ih =>
    by_cases ha : a.k = k
    · exact ⟨a, by simp [findKey, ha], ha, by simp⟩
    · have hm : k ∈ keysOf es := by
        rcases (by simpa using h) with h1 | h2
        · exact absurd h1.symm ha
        · exact h2
      obtain ⟨e, he, hk, hmem⟩ := ih hm
      refine ⟨e, ?_, hk, by simp [hmem]⟩
      simpa [findKey, ha] using he

theorem findKey_eq_none_of_not_mem {k : Nat} {l : List Entry} (h : k ∉ keysOf l) :
    findKey k l = none := by
  induction l with
  | nil => rfl
  | cons a es ih =>
    have ha : ¬ a.k = k := fun hk => h (by simp [hk])
    have hm : k ∉ keysOf es := fun hk => h (by simp [hk])
    simpa [findKey, ha] using ih hm

theorem perm_cons_eraseKey {k : Nat} {l : List Entry} {e : Entry}
    (h : findKey k l = some e) : l.Perm (e :: eraseKey k l) := by
  induction l with
  | nil => simp [findKey] at h
  | cons a es ih =>
    by_cases ha : a.k = k
    · have : a = e := by simpa [findKey, ha] using h
      subst this
      simp [eraseKey, ha]
    · have h' : findKey k es = some e := by simpa [findKey, ha] using h
      have herase : eraseKey k (a :: es) = a :: eraseKey k es := by
        simp [eraseKey, ha]
      rw [herase]
      exact ((ih h').cons a).trans (List.Perm.swap e a _)

theorem findKey_eraseKey_ne {x k : Nat} (hxk : x ≠ k) (l : List Entry) :
    findKey x (eraseKey k l) = findKey x l := by
  induction l with
  | nil => rfl
  | cons a es ih =>
    by_cases ha : a.k = k
    · have hbx : (a.k == x) = false := by
        simp only [beq_eq_false_iff_ne, ne_eq]
        rw [ha]
        exact fun hkx => hxk hkx.symm
      have hkx : (k == x) = false := by
        simp only [beq_eq_false_iff_ne, ne_eq]
        exact fun hkx2 => hxk hkx2.symm
      simp [findKey, eraseKey, ha, List.find?_cons, hbx, hkx]
    · by_cases hax : a.k = x
      · have hbx : (a.k == x) = true := by simpa using hax
        simp [findKey, eraseKey, ha, List.find?_cons, hbx]
      · have hbx : (a.k == x) = false := by simpa using hax
        simpa [findKey, eraseKey, ha, List.find?_cons, hbx] using ih

/-- Consistency of one ordered structure with its index: the linked list has
at most one entry per key, the index (a Go map's key set) has no duplicate
keys, and the index holds exactly the keys present in the list. -/
def IWF (ll : List Entry) (idx : List Nat) : Prop :=
  (keysOf ll).Nodup ∧ idx.Nodup ∧ ∀ x, x ∈ idx ↔ x ∈ keysOf ll

theorem IWF.nil : IWF [] [] :=
  ⟨List.nodup_nil, List.nodup_nil, by simp [keysOf]⟩

theorem IWF.push {ll : List Entry} {idx : List Nat} (h : IWF ll idx)
    {k : Nat} (hk : k ∉ idx) (v : Nat) :
    IWF (⟨k, v⟩ :: ll) (k :: idx) := by
  obtain ⟨h1, h2, h3⟩ := h
  refine ⟨?_, ?_, ?_⟩
  · exact List.nodup_cons.2 ⟨fun hm => hk ((h3 k).2 hm), h1⟩
  · exact List.nodup_cons.2 ⟨hk, h2⟩
  · intro x
    simp only [keysOf_cons, List.mem_cons]
    constructor
    · rintro (rfl | hx)
      · exact Or.inl rfl
      · exact Or.inr ((h3 x).1 hx)
    · rintro (rfl | hx)
      · exact Or.inl rfl
      · exact Or.inr ((h3 x).2 hx)

theorem IWF.moveFront {ll : List Entry} {idx : List Nat} (h : IWF ll idx)
    {k : Nat} (hk : k ∈ idx) (v : Nat) :
    IWF (⟨k, v⟩ :: eraseKey k ll) idx := by
  obtain ⟨h1, h2, h3⟩ := h
  have hkl : k ∈ keysOf ll := (h3 k).1 hk
  refine ⟨?_, h2, ?_⟩
  · rw [keysOf_cons, keysOf_eraseKey]
    exact List.nodup_cons.2 ⟨h1.not_mem_erase, h1.erase k⟩
  · intro x
    rw [keysOf_cons, keysOf_eraseKey, List.mem_cons]
    constructor
    · intro hx
      by_cases hxk : x = k
      · exact Or.inl hxk
      · exact Or.inr ((List.mem_erase_of_ne hxk).2 ((h3 x).1 hx))
    · rintro (rfl | hx)
      · exact hk
      · exact (h3 x).2 (List.mem_of_mem_erase hx)

theorem IWF.eraseOut {ll : List Entry} {idx : List Nat} (h : IWF ll idx) (k : Nat) :
    IWF (eraseKey k ll) (idx.erase k) := by
  obtain ⟨h1, h2, h3⟩ := h
  refine ⟨?_, h2.erase k, ?_⟩
  · rw [keysOf_eraseKey]
    exact h1.erase k
  · intro x
    rw [keysOf_eraseKey, h2.mem_erase_iff, h1.mem_erase_iff]
    exact and_congr_right fun _ => h3 x

theorem IWF.evictBack {ll : List Entry} {idx : List Nat} (h : IWF ll idx)
    {b : Entry} (hb : ll.getLast? = some b) :
    IWF ll.dropLast (idx.erase b.k) := by
  obtain ⟨h1, h2, h3⟩ := h
  have hne : ll ≠ [] := by
    intro h0
    rw [h0] at hb
    simp at hb
  have hsplit : ll = ll.dropLast ++ [b] := by
    conv_lhs => rw [← List.dropLast_append_getLast hne]
    rw [List.getLast?_eq_getLast ll hne] at hb
    simp at hb
    rw [hb]
  have hkeys : keysOf ll = keysOf ll.dropLast ++ [b.k] := by
    conv_lhs => rw [hsplit]
    simp [keysOf]
  have h1' : (keysOf ll.dropLast).Nodup ∧ b.k ∉ keysOf ll.dropLast := by
    rw [hkeys] at h1
    have := List.nodup_append.1 h1
    refine ⟨this.1, fun hm => ?_⟩
    exact this.2.2 hm (by simp)
  refine ⟨h1'.1, h2.erase _, ?_⟩
  intro x
  rw [h2.mem_erase_iff, h3 x, hkeys]
  simp only [List.mem_append, List.mem_singleton]
  constructor
  · rintro ⟨hne', hor⟩
    rcases hor with hx | rfl
    · exact hx
    · exact absurd rfl hne'
  · intro hx
    refine ⟨fun hxb => ?_, Or.inl hx⟩
    subst hxb
    exact h1'.2 hx

theorem IWF.filterMap_perm {ll : List Entry} {idx : List Nat} (h : IWF ll idx) :
    (idx.filterMap (fun k => findKey k ll)).Perm ll := by
  induction idx generalizing ll with
  | nil =>
    obtain ⟨h1, _, h3⟩ := h
    cases ll with
    | nil => simp
    | cons e es => exact absurd ((h3 e.k).2 (by simp)) (by simp)
  | cons k idx ih =>
    obtain ⟨h1, h2, h3⟩ := h
    have hk : k ∈ keysOf ll := (h3 k).1 (by simp)
    obtain ⟨e, he, hek, _⟩ := findKey_eq_some_of_mem hk
    have hknotin : k ∉ idx := (List.nodup_cons.1 h2).1
    have hrest : ∀ x ∈ idx, findKey x ll = findKey x (eraseKey k ll) := by
      intro x hx
      have hxk : x ≠ k := fun hxy => hknotin (hxy ▸ hx)
      exact (findKey_eraseKey_ne hxk ll).symm
    have hiwf : IWF (eraseKey k ll) idx := by
      have h4 := IWF.eraseOut ⟨h1, h2, h3⟩ k
      rwa [List.erase_cons_head] at h4
    have hperm := ih hiwf
    have hmapeq : idx.filterMap (fun x => findKey x ll)
        = idx.filterMap (fun x => findKey x (eraseKey k ll)) :=
      List.filterMap_congr hrest
    have hhead : (k :: idx).filterMap (fun x => findKey x ll)
        = e :: idx.filterMap (fun x => findKey x ll) := by
      simp [List.filterMap_cons, he]
    rw [hhead, hmapeq]
    exact (hperm.cons e).trans (perm_cons_eraseKey he).symm

/-- Back-eviction of an ordered structure together with its index, as the
policies perform it when a structure is full: when `full` holds, the back
(least recently used) element is unlinked and its key deleted from the
index.  The Go code only reaches `Back()` with a non-empty list; an empty
list leaves the pair unchanged. -/
def evictBackPair (full : Bool) (ll : List Entry) (idx : List Nat) :
    List Entry × List Nat :=
  if full then
    match ll.getLast? with
    | none => (ll, idx)
    | some b => (ll.dropLast, idx.erase b.k)
  else (ll, idx)

theorem evictBackPair_iwf {ll : List Entry} {idx : List Nat} (h : IWF ll idx)
    (full : Bool) :
    IWF (evictBackPair full ll idx).1 (evictBackPair full ll idx).2 := by
  cases full with
  | false => simpa [evictBackPair] using h
  | true =>
    cases hb : ll.getLast? with
    | none => simpa [evictBackPair, hb] using h
    | some b => simpa [evictBackPair, hb] using h.evictBack hb

theorem evictBackPair_not_mem (ll : List Entry) {idx : List Nat} {x : Nat}
    (h : x ∉ idx) (full : Bool) :
    x ∉ (evictBackPair full ll idx).2 := by
  cases full with
  | false => simpa [evictBackPair] using h
  | true =>
    cases hb : ll.getLast? with
    | none => simpa [evictBackPair, hb] using h
    | some b =>
      simp only [evictBackPair, hb, if_true]
      exact fun hm => h (List.mem_of_mem_erase hm)

theorem evictBackPair_mem_le {ll : List Entry} {idx : List Nat} {x : Nat}
    (full : Bool) (h : x ∈ (evictBackPair full ll idx).2) : x ∈ idx := by
  cases full with
  | false => simpa [evictBackPair] using h
  | true =>
    cases hb : ll.getLast? with
    | none => simpa [evictBackPair, hb] using h
    | some b =>
      simp only [evictBackPair, hb, if_true] at h
      exact List.mem_of_mem_erase h

theorem evictBackPair_len {m : Int} (ll : List Entry) (idx : List Nat) (full : Bool)
    (hm : 0 < m) (hle : (ll.length : Int) ≤ m)
    (ht : full = true → (ll.length : Int) = m)
    (hf : full = false → (ll.length : Int) ≠ m) :
    ((evictBackPair full ll idx).1.length : Int) + 1 ≤ m := by
  cases full with
  | false =>
    have := hf rfl
    simp only [evictBackPair, if_neg Bool.false_ne_true]
    omega
  | true =>
    have heq := ht rfl
    have hne : ll ≠ [] := by
      intro h0
      rw [h0] at heq
      simp at heq
      omega
    obtain ⟨b, hb⟩ := Option.isSome_iff_exists.1 (List.getLast?_isSome.2 hne)
    simp only [evictBackPair, hb, if_true, List.length_dropLast]
    have hpos : 0 < ll.length := List.length_pos.2 hne
    omega

theorem evictBackPair_len_le {ll : List Entry} {idx : List Nat} (full : Bool) :
    (evictBackPair full ll idx).1.length ≤ ll.length := by
  cases full with
  | false => simp [evictBackPair]
  | true =>
    cases hb : ll.getLast? with
    | none => simp [evictBackPair, hb]
    | some b => simp [evictBackPair, hb]

/-! ## LRU (src/lru/lru.go) -/

/-- State of `LRU`: capacity, linked list (front first) and key index. -/
structure LRU where
  maxEntries : Int
  ll : List Entry
  cache : List Nat
deriving DecidableEq, Repr

/-- NewLRU: fresh cache; zero `maxEntries` means no limit. -/
def LRU.lNew (maxEntries : Int) : LRU :=
  ⟨maxEntries, [], []⟩

/-- LRU.Add. -/
def LRU.add (s : LRU) (k v : Nat) : LRU :=
  if k ∈ s.cache then
    { s with ll := ⟨k, v⟩ :: eraseKey k s.ll }
  else
    let p := evictBackPair
      (decide (0 < s.maxEntries ∧ (s.ll.length : Int) = s.maxEntries)) s.ll s.cache
    { s with ll := ⟨k, v⟩ :: p.1, cache := k :: p.2 }

/-- LRU.Get: the returned value (if hit) and the state after the recency bump. -/
def LRU.get (s : LRU) (k : Nat) : Option Nat × LRU :=
  if k ∈ s.cache then
    match findKey k s.ll with
    | some e => (some e.v, { s with ll := e :: eraseKey k s.ll })
    | none => (none, s)
  else
    (none, s)

/-- LRU.Remove. -/
def LRU.remove (s : LRU) (k : Nat) : LRU :=
  if k ∈ s.cache then
    { s with ll := eraseKey k s.ll, cache := s.cache.erase k }
  else
    s

/-- LRU.Len. -/
def LRU.len (s : LRU) : Nat :=
  s.ll.length

/-- LRU.Clear. -/
def LRU.clear (s : LRU) : LRU :=
  { s with ll := [], cache := [] }

/-- One call of the capability contract (shared by all the policies). -/
inductive Op where
  | add (k v : Nat)
  | get (k : Nat)
  | remove (k : Nat)
  | clear
deriving DecidableEq, Repr

/-- The state change of one LRU call. -/
def LRU.step (s : LRU) : Op → LRU
  | .add k v => s.add k v
  | .get k => (s.get k).2
  | .remove k => s.remove k
  | .clear => s.clear

/-- State after a sequence of calls on a fresh LRU. -/
def LRU.run (maxEntries : Int) (ops : List Op) : LRU :=
  ops.foldl LRU.step (LRU.lNew maxEntries)

theorem foldl_invariant {α β : Type} (P : α → Prop) (f : α → β → α)
    (hstep : ∀ s b, P s → P (f s b)) :
    ∀ (l : List β) (s : α), P s → P (l.foldl f s) := by
  intro l
  induction l with
  | nil => intro s hs; exact hs
  | cons b t ih => intro s hs; exact ih (f s b) (hstep s b hs)

/-- Well-formedness of an LRU state: index/list consistency and the
capacity bound when one is configured. -/
def LRU.WF (s : LRU) : Prop :=
  IWF s.ll s.cache ∧ (0 < s.maxEntries → (s.ll.length : Int) ≤ s.maxEntries)

theorem LRU.wf_lNew (m : Int) : (LRU.lNew m).WF := by
  refine ⟨IWF.nil, ?_⟩
  intro h
  simp only [lNew] at h ⊢
  simp
  omega

theorem LRU.wf_add {s : LRU} (h : s.WF) (k v : Nat) : (s.add k v).WF := by
  obtain ⟨hiwf, hcap⟩ := h
  by_cases hk : k ∈ s.cache
  · constructor
    · simpa [LRU.add, hk] using hiwf.moveFront hk v
    · intro hm
      simp only [LRU.add, hk, if_pos] at hm ⊢
      have hkl : k ∈ keysOf s.ll := (hiwf.2.2 k).1 hk
      have hdec := length_eraseKey_of_mem hkl
      have hpos : 0 < s.ll.length := by
        cases hll : s.ll with
        | nil => rw [hll] at hkl; simp [keysOf] at hkl
        | cons a t => simp
      have := hcap hm
      simp only [List.length_cons, hdec]
      push_cast
      omega
  · constructor
    · have hiwf2 := evictBackPair_iwf hiwf
        (decide (0 < s.maxEntries ∧ (s.ll.length : Int) = s.maxEntries))
      have hnm := evictBackPair_not_mem s.ll hk
        (decide (0 < s.maxEntries ∧ (s.ll.length : Int) = s.maxEntries))
      simpa [LRU.add, hk] using hiwf2.push hnm v
    · intro hm
      simp only [LRU.add, if_neg hk] at hm ⊢
      have := evictBackPair_len s.ll s.cache
        (decide (0 < s.maxEntries ∧ (s.ll.length : Int) = s.maxEntries))
        hm (hcap hm) (by intro hfull; exact (of_decide_eq_true hfull).2)
        (by
          intro hfalse habs
          exact (of_decide_eq_false hfalse) ⟨hm, habs⟩)
      simp only [List.length_cons]
      push_cast
      omega

theorem LRU.wf_get {s : LRU} (h : s.WF) (k : Nat) : (s.get k).2.WF := by
  obtain ⟨hiwf, hcap⟩ := h
  by_cases hk : k ∈ s.cache
  · cases hf : findKey k s.ll with
    | none => simpa [LRU.get, hk, hf] using And.intro hiwf hcap
    | some e =>
      have hkl : k ∈ keysOf s.ll := (hiwf.2.2 k).1 hk
      obtain ⟨e', he', hek, _⟩ := findKey_eq_some_of_mem hkl
      rw [hf] at he'
      obtain rfl : e = e' := by injection he'
      constructor
      · have := hiwf.moveFront hk e.v
        have hThe : (⟨k, e.v⟩ : Entry) = e := by
          cases e
          simp at hek ⊢
          exact hek.symm
        rw [hThe] at this
        simpa [LRU.get, hk, hf] using this
      · intro hm
        simp only [LRU.get, hk, hf, if_pos] at hm ⊢
        have hdec := length_eraseKey_of_mem hkl
        have hpos : 0 < s.ll.length := by
          cases hll : s.ll with
          | nil => rw [hll] at hkl; simp [keysOf] at hkl
          | cons a t => simp
        have := hcap hm
        simp only [List.length_cons, hdec]
        push_cast
        omega
  · simpa [LRU.get, hk] using And.intro hiwf hcap

theorem LRU.wf_remove {s : LRU} (h : s.WF) (k : Nat) : (s.remove k).WF := by
  obtain ⟨hiwf, hcap⟩ := h
  by_cases hk : k ∈ s.cache
  · constructor
    · simpa [LRU.remove, hk] using hiwf.eraseOut k
    · intro hm
      simp only [LRU.remove, hk, if_pos] at hm ⊢
      have := hcap hm
      have := length_eraseKey_le k s.ll
      push_cast at this ⊢
      omega
  · simpa [LRU.remove, hk] using And.intro hiwf hcap

theorem LRU.wf_clear {s : LRU} (_ : s.WF) : s.clear.WF := by
  refine ⟨IWF.nil, ?_⟩
  intro hm
  simp only [LRU.clear] at hm ⊢
  simp
  omega

theorem LRU.wf_step {s : LRU} (h : s.WF) (op : Op) : (s.step op).WF := by
  cases op with
  | add k v => exact LRU.wf_add h k v
  | get k => exact LRU.wf_get h k
  | remove k => exact LRU.wf_remove h k
  | clear => exact LRU.wf_clear h

theorem LRU.wf_run (m : Int) (ops : List Op) : (LRU.run m ops).WF :=
  foldl_invariant LRU.WF LRU.step (fun _ op hs => LRU.wf_step hs op) ops
    (LRU.lNew m) (LRU.wf_lNew m)

/-! ## LRU-K (src/lru/lruk.go) -/

/-- Association list standing for the Go map `count map[cm.Key]int`. -/
def lookupC {β : Type} (k : Nat) : List (Nat × β) → Option β
  | [] => none
  | p :: t => if p.1 = k then some p.2 else lookupC k t

/-- Store of `count[k] = n` (replace in place, else append). -/
def setC {β : Type} (k : Nat) (n : β) : List (Nat × β) → List (Nat × β)
  | [] => [(k, n)]
  | p :: t => if p.1 = k then (k, n) :: t else p :: setC k n t

/-- Go `delete(count, k)`. -/
def eraseC {β : Type} (k : Nat) : List (Nat × β) → List (Nat × β)
  | [] => []
  | p :: t => if p.1 = k then t else p :: eraseC k t

theorem lookupC_setC_self {β : Type} (k : Nat) (n : β) (l : List (Nat × β)) :
    lookupC k (setC k n l) = some n := by
  induction l with
  | nil => simp [setC, lookupC]
  | cons p t ih =>
    by_cases hp : p.1 = k
    · simp [setC, lookupC, hp]
    · simpa [setC, lookupC, hp] using ih

theorem lookupC_setC_ne {β : Type} {x k : Nat} (h : x ≠ k) (n : β) (l : List (Nat × β)) :
    lookupC x (setC k n l) = lookupC x l := by
  have hkx : ¬ k = x := fun hh => h hh.symm
  induction l with
  | nil => simp [setC, lookupC, hkx]
  | cons p t ih =>
    by_cases hp : p.1 = k
    · have hpx : ¬ p.1 = x := by
        rw [hp]
        exact hkx
      simp [setC, lookupC, hp, hpx, hkx]
    · by_cases hpx : p.1 = x
      · simp [setC, lookupC, hp, hpx, h]
      · simpa [setC, lookupC, hp, hpx, h] using ih

theorem lookupC_eraseC_ne {β : Type} {x k : Nat} (h : x ≠ k) (l : List (Nat × β)) :
    lookupC x (eraseC k l) = lookupC x l := by
  have hkx : ¬ k = x := fun hh => h hh.symm
  induction l with
  | nil => rfl
  | cons p t ih =>
    by_cases hp : p.1 = k
    · have hpx : ¬ p.1 = x := by
        rw [hp]
        exact hkx
      simp [eraseC, lookupC, hp, hpx, hkx]
    · by_cases hpx : p.1 = x
      · simp [eraseC, lookupC, hp, hpx, h]
      · simpa [eraseC, lookupC, hp, hpx, h] using ih

theorem lookupC_eq_none_of_not_mem {β : Type} {k : Nat} {l : List (Nat × β)}
    (h : k ∉ l.map Prod.fst) : lookupC k l = none := by
  induction l with
  | nil => rfl
  | cons p t ih =>
    have hp : ¬ p.1 = k := fun hk => h (by simp [hk])
    have hm : k ∉ t.map Prod.fst := fun hk => h (by simp [hk])
    simpa [lookupC, hp] using ih hm

theorem not_mem_of_lookupC_none {β : Type} {k : Nat} {l : List (Nat × β)}
    (h : lookupC k l = none) : k ∉ l.map Prod.fst := by
  induction l with
  | nil => simp
  | cons p t ih =>
    rw [lookupC] at h
    by_cases hp : p.1 = k
    · rw [if_pos hp] at h
      cases h
    · rw [if_neg hp] at h
      intro hm
      rcases (by simpa using hm) with h1 | h2
      · exact hp h1.symm
      · exact (ih h) (by simpa using h2)

theorem mem_map_fst_eraseC {β : Type} {x k : Nat} {l : List (Nat × β)}
    (h : x ∈ (eraseC k l).map Prod.fst) : x ∈ l.map Prod.fst := by
  induction l with
  | nil => simpa [eraseC] using h
  | cons p t ih =>
    by_cases hp : p.1 = k
    · rw [eraseC] at h
      simp only [if_pos hp] at h
      simp [h]
    · rw [eraseC] at h
      simp only [if_neg hp] at h
      rcases (by simpa using h) with h1 | h2
      · simp [h1]
      · simpa using Or.inr (by simpa using ih (by simpa using h2))

theorem lookupC_eraseC_self {β : Type} {k : Nat} {l : List (Nat × β)}
    (h : (l.map Prod.fst).Nodup) : lookupC k (eraseC k l) = none := by
  induction l with
  | nil => rfl
  | cons p t ih =>
    rw [List.map_cons] at h
    have hn := List.nodup_cons.1 h
    by_cases hp : p.1 = k
    · rw [eraseC]
      simp only [if_pos hp]
      apply lookupC_eq_none_of_not_mem
      rw [← hp]
      exact hn.1
    · rw [eraseC]
      simp only [if_neg hp]
      simpa [lookupC, hp] using ih hn.2

theorem map_fst_setC {β : Type} (k : Nat) (n : β) (l : List (Nat × β)) :
    (setC k n l).map Prod.fst =
      if k ∈ l.map Prod.fst then l.map Prod.fst else l.map Prod.fst ++ [k] := by
  induction l with
  | nil => simp [setC]
  | cons p t ih =>
    by_cases hp : p.1 = k
    · rw [setC]
      simp [hp]
    · rw [setC]
      simp only [if_neg hp, List.map_cons, ih]
      have hkp : ¬ k = p.1 := fun hh => hp hh.symm
      by_cases hm : k ∈ t.map Prod.fst
      · simp [hm, hkp]
      · simp [hm, hkp]

theorem nodup_map_fst_setC {β : Type} (k : Nat) (n : β) {l : List (Nat × β)}
    (h : (l.map Prod.fst).Nodup) : ((setC k n l).map Prod.fst).Nodup := by
  rw [map_fst_setC]
  by_cases hm : k ∈ l.map Prod.fst
  · simpa [hm] using h
  · rw [if_neg hm]
    exact (List.perm_append_singleton k (l.map Prod.fst)).nodup_iff.2
      (List.nodup_cons.2 ⟨hm, h⟩)

theorem nodup_map_fst_eraseC {β : Type} (k : Nat) {l : List (Nat × β)}
    (h : (l.map Prod.fst).Nodup) : ((eraseC k l).map Prod.fst).Nodup := by
  induction l with
  | nil => simp [eraseC]
  | cons p t ih =>
    rw [List.map_cons] at h
    have hn := List.nodup_cons.1 h
    by_cases hp : p.1 = k
    · rw [eraseC]
      simpa [hp] using hn.2
    · rw [eraseC]
      simp only [if_neg hp, List.map_cons]
      refine List.nodup_cons.2 ⟨?_, ih hn.2⟩
      intro hmem
      exact hn.1 (mem_map_fst_eraseC hmem)

/-- The three structures `LRUK.Clear` sets to `nil` together: after `Clear`
the whole bundle is `none` (Go `cache == nil`), and `Add` re-creates it. -/
structure LRUKCore where
  ll : List Entry
  count : List (Nat × Int)
  cache : List Nat
deriving DecidableEq, Repr

/-- State of `LRUK`: configuration (including whether `OnEvicted` is set),
the nilable storage bundle, and the log of eviction-callback invocations. -/
structure LRUK where
  maxEntries : Int
  maxHitting : Int
  onEvicted : Bool
  core : Option LRUKCore
  evLog : List Entry
deriving DecidableEq, Repr

/-- The state `NewLRUK` builds when it does not panic. -/
def LRUK.fresh (maxEntries maxHitting : Int) (onEvicted : Bool) : LRUK :=
  ⟨maxEntries, maxHitting, onEvicted, some ⟨[], [], []⟩, []⟩

/-- NewLRUK: `none` models the `panic` on `maxHitting <= 0`. -/
def LRUK.kNew (maxEntries maxHitting : Int) (onEvicted : Bool) : Option LRUK :=
  if maxHitting ≤ 0 then none
  else some (LRUK.fresh maxEntries maxHitting onEvicted)

/-- LRUK.Add.  Go stores `count[k] += 1` before comparing with `MaxHitting`
and deletes the binding again on admission; writing the incremented value
and deleting it is the same map as deleting the original binding, so the
admission branch erases from the original `count`. -/
def LRUK.add (s : LRUK) (k v : Nat) : LRUK :=
  let c := s.core.getD ⟨[], [], []⟩
  if k ∈ c.cache then
    { s with core := some { c with ll := ⟨k, v⟩ :: eraseKey k c.ll } }
  else
    let n := (lookupC k c.count).getD 0 + 1
    if n < s.maxHitting then
      { s with core := some { c with count := setC k n c.count } }
    else
      let p := evictBackPair
        (decide (0 < s.maxEntries ∧ (c.ll.length : Int) = s.maxEntries)) c.ll c.cache
      { s with core := some ⟨⟨k, v⟩ :: p.1, eraseC k c.count, k :: p.2⟩ }

/-- LRUK.Get: returns `(nil, false)` without touching `count` when the
storage is nil (after `Clear`); a miss on live storage increments the
pending-access counter. -/
def LRUK.get (s : LRUK) (k : Nat) : Option Nat × LRUK :=
  match s.core with
  | none => (none, s)
  | some c =>
    if k ∈ c.cache then
      match findKey k c.ll with
      | some e =>
        (some e.v, { s with core := some { c with ll := e :: eraseKey k c.ll } })
      | none => (none, s)
    else
      let c2 := { c with count := setC k ((lookupC k c.count).getD 0 + 1) c.count }
      (none, { s with core := some c2 })

/-- LRUK.Remove: deletes from list and index only; `count` is untouched. -/
def LRUK.remove (s : LRUK) (k : Nat) : LRUK :=
  match s.core with
  | none => s
  | some c =>
    if k ∈ c.cache then
      { s with core := some { c with ll := eraseKey k c.ll, cache := c.cache.erase k } }
    else s

/-- LRUK.Len. -/
def LRUK.len (s : LRUK) : Nat :=
  match s.core with
  | none => 0
  | some c => c.ll.length

/-- The `(key, value)` pairs `Clear` feeds to `OnEvicted`: one per entry of
the `cache` map, dereferencing each stored element. -/
def LRUK.clearCalls (s : LRUK) : List Entry :=
  if s.onEvicted then
    match s.core with
    | none => []
    | some c => c.cache.filterMap (fun k => findKey k c.ll)
  else []

/-- LRUK.Clear: invoke the callback per cached entry, then nil the storage. -/
def LRUK.clear (s : LRUK) : LRUK :=
  { s with core := none, evLog := s.evLog ++ s.clearCalls }

/-- The state change of one LRUK call. -/
def LRUK.step (s : LRUK) : Op → LRUK
  | .add k v => s.add k v
  | .get k => (s.get k).2
  | .remove k => s.remove k
  | .clear => s.clear

/-- State after a sequence of calls on a fresh LRUK. -/
def LRUK.runF (maxEntries maxHitting : Int) (onEvicted : Bool) (ops : List Op) : LRUK :=
  ops.foldl LRUK.step (LRUK.fresh maxEntries maxHitting onEvicted)

/-- Well-formedness of the live storage: index/list consistency, the count
map is a map (no duplicate keys), cached keys carry no pending counter, and
the capacity bound. -/
def LRUKCore.WF (c : LRUKCore) (m : Int) : Prop :=
  IWF c.ll c.cache ∧ (c.count.map Prod.fst).Nodup ∧
    (∀ x ∈ c.cache, lookupC x c.count = none) ∧
    (0 < m → (c.ll.length : Int) ≤ m)

/-- Well-formedness of an LRUK state. -/
def LRUK.WF (s : LRUK) : Prop :=
  match s.core with
  | none => True
  | some c => c.WF s.maxEntries

theorem LRUKCore.wf_empty (m : Int) : LRUKCore.WF ⟨[], [], []⟩ m := by
  refine ⟨IWF.nil, by simp, by simp, ?_⟩
  intro h
  simp
  omega

theorem LRUK.wfk_fresh (m kk : Int) (ev : Bool) : (LRUK.fresh m kk ev).WF :=
  LRUKCore.wf_empty m

theorem LRUK.wfk_add {s : LRUK} (h : s.WF) (k v : Nat) : (s.add k v).WF := by
  have hc : (s.core.getD ⟨[], [], []⟩).WF s.maxEntries := by
    cases hcore : s.core with
    | none => simpa using LRUKCore.wf_empty s.maxEntries
    | some c =>
      rw [LRUK.WF, hcore] at h
      simpa [hcore] using h
  obtain ⟨hiwf, hnodup, hdisj, hcap⟩ := hc
  set c := s.core.getD ⟨[], [], []⟩ with hcdef
  by_cases hk : k ∈ c.cache
  · have hgoal : LRUKCore.WF { c with ll := ⟨k, v⟩ :: eraseKey k c.ll } s.maxEntries := by
      refine ⟨hiwf.moveFront hk v, hnodup, hdisj, ?_⟩
      intro hm
      have hkl : k ∈ keysOf c.ll := (hiwf.2.2 k).1 hk
      have hdec := length_eraseKey_of_mem hkl
      have hpos : 0 < c.ll.length := by
        cases hll : c.ll with
        | nil => rw [hll] at hkl; simp [keysOf] at hkl
        | cons a t => simp
      have := hcap hm
      simp only [List.length_cons, hdec]
      push_cast
      omega
    simpa [LRUK.add, LRUK.WF, ← hcdef, hk] using hgoal
  · by_cases hlt : (lookupC k c.count).getD 0 + 1 < s.maxHitting
    · have hgoal : LRUKCore.WF
          { c with count := setC k ((lookupC k c.count).getD 0 + 1) c.count }
          s.maxEntries := by
        refine ⟨hiwf, nodup_map_fst_setC _ _ hnodup, ?_, hcap⟩
        intro x hx
        have hxk : x ≠ k := fun hxy => hk (hxy ▸ hx)
        rw [lookupC_setC_ne hxk]
        exact hdisj x hx
      simpa [LRUK.add, LRUK.WF, ← hcdef, hk, hlt] using hgoal
    · have hiwf2 := evictBackPair_iwf hiwf
        (decide (0 < s.maxEntries ∧ (c.ll.length : Int) = s.maxEntries))
      have hnm := evictBackPair_not_mem c.ll hk
        (decide (0 < s.maxEntries ∧ (c.ll.length : Int) = s.maxEntries))
      have hgoal : LRUKCore.WF
          ⟨⟨k, v⟩ :: (evictBackPair
              (decide (0 < s.maxEntries ∧ (c.ll.length : Int) = s.maxEntries))
              c.ll c.cache).1,
            eraseC k c.count,
            k :: (evictBackPair
              (decide (0 < s.maxEntries ∧ (c.ll.length : Int) = s.maxEntries))
              c.ll c.cache).2⟩ s.maxEntries := by
        refine ⟨hiwf2.push hnm v, nodup_map_fst_eraseC _ hnodup, ?_, ?_⟩
        · intro x hx
          rcases List.mem_cons.1 hx with rfl | hx2
          · exact lookupC_eraseC_self hnodup
          · have hx3 := evictBackPair_mem_le _ hx2
            have hxk : x ≠ k := fun hxy => hk (hxy ▸ hx3)
            rw [lookupC_eraseC_ne hxk]
            exact hdisj x hx3
        · intro hm
          have := evictBackPair_len c.ll c.cache
            (decide (0 < s.maxEntries ∧ (c.ll.length : Int) = s.maxEntries))
            hm (hcap hm) (fun hfull => (of_decide_eq_true hfull).2)
            (fun hfalse habs => (of_decide_eq_false hfalse) ⟨hm, habs⟩)
          simp only [List.length_cons]
          push_cast
          omega
      simpa [LRUK.add, LRUK.WF, ← hcdef, hk, hlt] using hgoal

theorem LRUK.wfk_get {s : LRUK} (h : s.WF) (k : Nat) : (s.get k).2.WF := by
  cases hcore : s.core with
  | none => simpa [LRUK.get, hcore, LRUK.WF] using h
  | some c =>
    have hc : c.WF s.maxEntries := by
      rw [LRUK.WF, hcore] at h
      exact h
    obtain ⟨hiwf, hnodup, hdisj, hcap⟩ := hc
    by_cases hk : k ∈ c.cache
    · have hkl : k ∈ keysOf c.ll := (hiwf.2.2 k).1 hk
      obtain ⟨e, he, hek, _⟩ := findKey_eq_some_of_mem hkl
      have hgoal : LRUKCore.WF { c with ll := e :: eraseKey k c.ll } s.maxEntries := by
        have hmv := hiwf.moveFront hk e.v
        have hThe : (⟨k, e.v⟩ : Entry) = e := by
          cases e
          simp at hek ⊢
          exact hek.symm
        rw [hThe] at hmv
        refine ⟨hmv, hnodup, hdisj, ?_⟩
        intro hm
        have hdec := length_eraseKey_of_mem hkl
        have hpos : 0 < c.ll.length := by
          cases hll : c.ll with
          | nil => rw [hll] at hkl; simp [keysOf] at hkl
          | cons a t => simp
        have := hcap hm
        simp only [List.length_cons, hdec]
        push_cast
        omega
      simpa [LRUK.get, hcore, hk, he, LRUK.WF] using hgoal
    · have hgoal : LRUKCore.WF
          { c with count := setC k ((lookupC k c.count).getD 0 + 1) c.count }
          s.maxEntries := by
        refine ⟨hiwf, nodup_map_fst_setC _ _ hnodup, ?_, hcap⟩
        intro x hx
        have hxk : x ≠ k := fun hxy => hk (hxy ▸ hx)
        rw [lookupC_setC_ne hxk]
        exact hdisj x hx
      simpa [LRUK.get, hcore, hk, LRUK.WF] using hgoal

theorem LRUK.wfk_remove {s : LRUK} (h : s.WF) (k : Nat) : (s.remove k).WF := by
  cases hcore : s.core with
  | none => simpa [LRUK.remove, hcore, LRUK.WF] using h
  | some c =>
    have hc : c.WF s.maxEntries := by
      rw [LRUK.WF, hcore] at h
      exact h
    obtain ⟨hiwf, hnodup, hdisj, hcap⟩ := hc
    by_cases hk : k ∈ c.cache
    · have hgoal : LRUKCore.WF
          { c with ll := eraseKey k c.ll, cache := c.cache.erase k } s.maxEntries := by
        refine ⟨hiwf.eraseOut k, hnodup, ?_, ?_⟩
        · intro x hx
          exact hdisj x (List.mem_of_mem_erase hx)
        · intro hm
          have := hcap hm
          have := length_eraseKey_le k c.ll
          push_cast at this ⊢
          omega
      simpa [LRUK.remove, hcore, hk, LRUK.WF] using hgoal
    · simpa [LRUK.remove, hcore, hk, LRUK.WF, hcore] using h

theorem LRUK.wfk_clear {s : LRUK} (h : s.WF) : s.clear.WF := by
  simp [LRUK.clear, LRUK.WF]

theorem LRUK.wfk_step {s : LRUK} (h : s.WF) (op : Op) : (s.step op).WF := by
  cases op with
  | add k v => exact LRUK.wfk_add h k v
  | get k => exact LRUK.wfk_get h k
  | remove k => exact LRUK.wfk_remove h k
  | clear => exact LRUK.wfk_clear h

theorem LRUK.wfk_runF (m kk : Int) (ev : Bool) (ops : List Op) :
    (LRUK.runF m kk ev ops).WF :=
  foldl_invariant LRUK.WF LRUK.step (fun _ op hs => LRUK.wfk_step hs op) ops
    (LRUK.fresh m kk ev) (LRUK.wfk_fresh m kk ev)

/-! ## 2Q (src/lru/lru2q.go) -/

theorem findKey_some_key {k : Nat} {l : List Entry} {e : Entry}
    (h : findKey k l = some e) : e.k = k := by
  have := List.find?_some h
  simpa using this

/-- The main recency structure of 2Q: `ll` and its index `cache`. -/
structure QMain where
  ll : List Entry
  cache : List Nat
deriving DecidableEq, Repr

/-- The FIFO probation structure of 2Q: `fifo` and its index `qcount`. -/
structure QProb where
  fifo : List Entry
  qcount : List Nat
deriving DecidableEq, Repr

/-- State of `LRU2Q`: capacity, whether `OnEvicted` is set, the two nilable
structures (each checked and re-created separately by `Add`/`Get`), and the
log of eviction-callback invocations. -/
structure LRU2Q where
  maxEntries : Int
  onEvicted : Bool
  main : Option QMain
  prob : Option QProb
  evLog : List Entry
deriving DecidableEq, Repr

/-- The live main structure (`nil` reads as empty). -/
def LRU2Q.viewMain (s : LRU2Q) : QMain :=
  s.main.getD ⟨[], []⟩

/-- The live probation structure (`nil` reads as empty). -/
def LRU2Q.viewProb (s : LRU2Q) : QProb :=
  s.prob.getD ⟨[], []⟩

/-- The state `NewLRU2Q` builds when it does not panic. -/
def LRU2Q.fresh (maxEntries : Int) (onEvicted : Bool) : LRU2Q :=
  ⟨maxEntries, onEvicted, some ⟨[], []⟩, some ⟨[], []⟩, []⟩

/-- NewLRU2Q: `none` models the `panic` on `maxEntries <= 0`. -/
def LRU2Q.qNew (maxEntries : Int) (onEvicted : Bool) : Option LRU2Q :=
  if maxEntries ≤ 0 then none
  else some (LRU2Q.fresh maxEntries onEvicted)

/-- LRU2Q.Add.  The promotion branch moves the probation entry itself into
the main structure (the `v` argument is not written there), and the eviction
of main's back entry does not touch `evLog`: the Go code never calls
`OnEvicted` here. -/
def LRU2Q.add (s : LRU2Q) (k v : Nat) : LRU2Q :=
  let mn := s.viewMain
  let pb := s.viewProb
  if k ∈ mn.cache then
    { s with main := some { mn with ll := ⟨k, v⟩ :: eraseKey k mn.ll },
             prob := some pb }
  else if k ∈ pb.qcount then
    match findKey k pb.fifo with
    | none => { s with main := some mn, prob := some pb }
    | some kv =>
      let p := evictBackPair (decide ((mn.ll.length : Int) = s.maxEntries))
        mn.ll mn.cache
      { s with main := some ⟨kv :: p.1, k :: p.2⟩,
               prob := some ⟨eraseKey k pb.fifo, pb.qcount.erase k⟩ }
  else
    let q := evictBackPair (decide ((pb.fifo.length : Int) = s.maxEntries))
      pb.fifo pb.qcount
    { s with main := some mn, prob := some ⟨⟨k, v⟩ :: q.1, k :: q.2⟩ }

/-- The probation half of LRU2Q.Get: hit promotes the entry into main
(re-creating main if nil) and again never calls `OnEvicted`. -/
def LRU2Q.getProb (s : LRU2Q) (k : Nat) : Option Nat × LRU2Q :=
  match s.prob with
  | none => (none, s)
  | some pb =>
    if k ∈ pb.qcount then
      match findKey k pb.fifo with
      | none => (none, s)
      | some kv =>
        let mn := s.viewMain
        let p := evictBackPair (decide ((mn.ll.length : Int) = s.maxEntries))
          mn.ll mn.cache
        (some kv.v,
          { s with main := some ⟨kv :: p.1, k :: p.2⟩,
                   prob := some ⟨eraseKey k pb.fifo, pb.qcount.erase k⟩ })
    else (none, s)

/-- LRU2Q.Get. -/
def LRU2Q.get (s : LRU2Q) (k : Nat) : Option Nat × LRU2Q :=
  match s.main with
  | none => s.getProb k
  | some mn =>
    if k ∈ mn.cache then
      match findKey k mn.ll with
      | some e =>
        (some e.v, { s with main := some { mn with ll := e :: eraseKey k mn.ll } })
      | none => s.getProb k
    else s.getProb k

/-- LRU2Q.Remove: checks both structures independently. -/
def LRU2Q.remove (s : LRU2Q) (k : Nat) : LRU2Q :=
  let s1 := match s.main with
    | none => s
    | some mn =>
      if k ∈ mn.cache then
        { s with main := some ⟨eraseKey k mn.ll, mn.cache.erase k⟩ }
      else s
  match s1.prob with
  | none => s1
  | some pb =>
    if k ∈ pb.qcount then
      { s1 with prob := some ⟨eraseKey k pb.fifo, pb.qcount.erase k⟩ }
    else s1

/-- LRU2Q.Len: sum of the two live structures. -/
def LRU2Q.len (s : LRU2Q) : Nat :=
  (match s.main with | none => 0 | some mn => mn.ll.length) +
    (match s.prob with | none => 0 | some pb => pb.fifo.length)

/-- The `(key, value)` pairs `Clear` feeds to `OnEvicted`: the `cache` map's
entries, then the `qcount` map's. -/
def LRU2Q.clearCalls (s : LRU2Q) : List Entry :=
  if s.onEvicted then
    (match s.main with
      | none => []
      | some mn => mn.cache.filterMap (fun k => findKey k mn.ll)) ++
    (match s.prob with
      | none => []
      | some pb => pb.qcount.filterMap (fun k => findKey k pb.fifo))
  else []

/-- LRU2Q.Clear. -/
def LRU2Q.clear (s : LRU2Q) : LRU2Q :=
  { s with main := none, prob := none, evLog := s.evLog ++ s.clearCalls }

/-- The state change of one LRU2Q call. -/
def LRU2Q.step (s : LRU2Q) : Op → LRU2Q
  | .add k v => s.add k v
  | .get k => (s.get k).2
  | .remove k => s.remove k
  | .clear => s.clear

/-- State after a sequence of calls on a fresh LRU2Q. -/
def LRU2Q.runF (maxEntries : Int) (onEvicted : Bool) (ops : List Op) : LRU2Q :=
  ops.foldl LRU2Q.step (LRU2Q.fresh maxEntries onEvicted)

/-- Well-formedness of a 2Q state, read through the live views: both
structures are index/list consistent and bounded, and no key is indexed by
both at once. -/
def LRU2Q.WF (s : LRU2Q) : Prop :=
  (IWF s.viewMain.ll s.viewMain.cache ∧
    (0 < s.maxEntries → (s.viewMain.ll.length : Int) ≤ s.maxEntries)) ∧
  (IWF s.viewProb.fifo s.viewProb.qcount ∧
    (0 < s.maxEntries → (s.viewProb.fifo.length : Int) ≤ s.maxEntries)) ∧
  ∀ x, x ∈ s.viewMain.cache → x ∉ s.viewProb.qcount

@[simp] theorem LRU2Q.viewMain_some {m : Int} {ev : Bool} {mn : QMain}
    {pr : Option QProb} {lg : List Entry} :
    (LRU2Q.mk m ev (some mn) pr lg).viewMain = mn := rfl

@[simp] theorem LRU2Q.viewProb_some {m : Int} {ev : Bool} {mo : Option QMain}
    {pb : QProb} {lg : List Entry} :
    (LRU2Q.mk m ev mo (some pb) lg).viewProb = pb := rfl

theorem LRU2Q.add_hit {s : LRU2Q} {k : Nat} (hk : k ∈ s.viewMain.cache) (v : Nat) :
    s.add k v = { s with
      main := some ⟨⟨k, v⟩ :: eraseKey k s.viewMain.ll, s.viewMain.cache⟩,
      prob := some s.viewProb } := by
  simp only [LRU2Q.add, if_pos hk]

theorem LRU2Q.add_promote {s : LRU2Q} {k : Nat} {kv : Entry}
    (hk : k ∉ s.viewMain.cache) (hq : k ∈ s.viewProb.qcount)
    (hf : findKey k s.viewProb.fifo = some kv) (v : Nat) :
    s.add k v = { s with
      main := some ⟨kv :: (evictBackPair
          (decide ((s.viewMain.ll.length : Int) = s.maxEntries))
          s.viewMain.ll s.viewMain.cache).1,
        k :: (evictBackPair
          (decide ((s.viewMain.ll.length : Int) = s.maxEntries))
          s.viewMain.ll s.viewMain.cache).2⟩,
      prob := some ⟨eraseKey k s.viewProb.fifo, s.viewProb.qcount.erase k⟩ } := by
  simp only [LRU2Q.add, if_neg hk, if_pos hq, hf]

theorem LRU2Q.add_newkey {s : LRU2Q} {k : Nat}
    (hk : k ∉ s.viewMain.cache) (hq : k ∉ s.viewProb.qcount) (v : Nat) :
    s.add k v = { s with
      main := some s.viewMain,
      prob := some ⟨⟨k, v⟩ :: (evictBackPair
          (decide ((s.viewProb.fifo.length : Int) = s.maxEntries))
          s.viewProb.fifo s.viewProb.qcount).1,
        k :: (evictBackPair
          (decide ((s.viewProb.fifo.length : Int) = s.maxEntries))
          s.viewProb.fifo s.viewProb.qcount).2⟩ } := by
  simp only [LRU2Q.add, if_neg hk, if_neg hq]

theorem LRU2Q.wfq_fresh (m : Int) (ev : Bool) : (LRU2Q.fresh m ev).WF := by
  refine ⟨⟨IWF.nil, ?_⟩, ⟨IWF.nil, ?_⟩, ?_⟩
  · intro hm
    simp only [fresh] at hm ⊢
    simp
    omega
  · intro hm
    simp only [fresh] at hm ⊢
    simp
    omega
  · intro x hx
    simp only [fresh] at hx
    simp at hx

theorem LRU2Q.wfq_add {s : LRU2Q} (h : s.WF) (k v : Nat) : (s.add k v).WF := by
  obtain ⟨⟨hmi, hmc⟩, ⟨hpi, hpc⟩, hdisj⟩ := h
  by_cases hk : k ∈ s.viewMain.cache
  · rw [LRU2Q.add_hit hk v]
    simp only [LRU2Q.WF, viewMain_some, viewProb_some]
    refine ⟨⟨hmi.moveFront hk v, ?_⟩, ⟨hpi, hpc⟩, hdisj⟩
    intro hm
    have hkl : k ∈ keysOf s.viewMain.ll := (hmi.2.2 k).1 hk
    have hdec := length_eraseKey_of_mem hkl
    have hpos : 0 < s.viewMain.ll.length := by
      cases hll : s.viewMain.ll with
      | nil => rw [hll] at hkl; simp [keysOf] at hkl
      | cons a t => simp
    have := hmc hm
    simp only [List.length_cons, hdec]
    push_cast
    omega
  · by_cases hq : k ∈ s.viewProb.qcount
    · have hkl : k ∈ keysOf s.viewProb.fifo := (hpi.2.2 k).1 hq
      obtain ⟨kv, hf, hkv, _⟩ := findKey_eq_some_of_mem hkl
      rw [LRU2Q.add_promote hk hq hf v]
      simp only [LRU2Q.WF, viewMain_some, viewProb_some]
      have hiwf2 := evictBackPair_iwf hmi
        (decide ((s.viewMain.ll.length : Int) = s.maxEntries))
      have hnm := evictBackPair_not_mem s.viewMain.ll hk
        (decide ((s.viewMain.ll.length : Int) = s.maxEntries))
      have hpush : IWF (kv :: (evictBackPair
          (decide ((s.viewMain.ll.length : Int) = s.maxEntries))
          s.viewMain.ll s.viewMain.cache).1)
          (k :: (evictBackPair
          (decide ((s.viewMain.ll.length : Int) = s.maxEntries))
          s.viewMain.ll s.viewMain.cache).2) := by
        have hkve : (⟨k, kv.v⟩ : Entry) = kv := by
          cases kv
          simp at hkv ⊢
          exact hkv.symm
        have := hiwf2.push hnm kv.v
        rwa [hkve] at this
      refine ⟨⟨hpush, ?_⟩, ⟨hpi.eraseOut k, ?_⟩, ?_⟩
      · intro hm
        have := evictBackPair_len s.viewMain.ll s.viewMain.cache
          (decide ((s.viewMain.ll.length : Int) = s.maxEntries))
          hm (hmc hm) (fun hfull => of_decide_eq_true hfull)
          (fun hfalse habs => (of_decide_eq_false hfalse) habs)
        simp only [List.length_cons]
        push_cast
        omega
      · intro hm
        have := hpc hm
        have h2 := length_eraseKey_le k s.viewProb.fifo
        push_cast at this ⊢
        omega
      · intro x hx
        rcases List.mem_cons.1 hx with rfl | hx2
        · exact hpi.2.1.not_mem_erase
        · have hx3 := evictBackPair_mem_le _ hx2
          intro hmem
          exact hdisj x hx3 (List.mem_of_mem_erase hmem)
    · rw [LRU2Q.add_newkey hk hq v]
      simp only [LRU2Q.WF, viewMain_some, viewProb_some]
      have hiwf2 := evictBackPair_iwf hpi
        (decide ((s.viewProb.fifo.length : Int) = s.maxEntries))
      have hnm := evictBackPair_not_mem s.viewProb.fifo hq
        (decide ((s.viewProb.fifo.length : Int) = s.maxEntries))
      refine ⟨⟨hmi, hmc⟩, ⟨hiwf2.push hnm v, ?_⟩, ?_⟩
      · intro hm
        have := evictBackPair_len s.viewProb.fifo s.viewProb.qcount
          (decide ((s.viewProb.fifo.length : Int) = s.maxEntries))
          hm (hpc hm) (fun hfull => of_decide_eq_true hfull)
          (fun hfalse habs => (of_decide_eq_false hfalse) habs)
        simp only [List.length_cons]
        push_cast
        omega
      · intro x hx
        intro hmem
        rcases List.mem_cons.1 hmem with rfl | hm2
        · exact hk hx
        · exact hdisj x hx (evictBackPair_mem_le _ hm2)

theorem LRU2Q.getProb_miss {s : LRU2Q} {k : Nat} (hq : k ∉ s.viewProb.qcount) :
    s.getProb k = (none, s) := by
  cases hp : s.prob with
  | none => simp [LRU2Q.getProb, hp]
  | some pb =>
    have hv : s.viewProb = pb := by
      rw [LRU2Q.viewProb, hp]
      rfl
    rw [hv] at hq
    simp [LRU2Q.getProb, hp, hq]

theorem LRU2Q.getProb_promote {s : LRU2Q} {k : Nat} {kv : Entry}
    (hq : k ∈ s.viewProb.qcount) (hf : findKey k s.viewProb.fifo = some kv) :
    s.getProb k = (some kv.v, { s with
      main := some ⟨kv :: (evictBackPair
          (decide ((s.viewMain.ll.length : Int) = s.maxEntries))
          s.viewMain.ll s.viewMain.cache).1,
        k :: (evictBackPair
          (decide ((s.viewMain.ll.length : Int) = s.maxEntries))
          s.viewMain.ll s.viewMain.cache).2⟩,
      prob := some ⟨eraseKey k s.viewProb.fifo, s.viewProb.qcount.erase k⟩ }) := by
  cases hp : s.prob with
  | none =>
    have hv : s.viewProb = ⟨[], []⟩ := by
      rw [LRU2Q.viewProb, hp]
      rfl
    rw [hv] at hq
    simp at hq
  | some pb =>
    have hv : s.viewProb = pb := by
      rw [LRU2Q.viewProb, hp]
      rfl
    rw [hv] at hq hf
    simp only [LRU2Q.getProb, hp, if_pos hq, hf, hv]

theorem LRU2Q.get_hitMain {s : LRU2Q} {k : Nat} {e : Entry}
    (hk : k ∈ s.viewMain.cache) (hf : findKey k s.viewMain.ll = some e) :
    s.get k = (some e.v, { s with
      main := some ⟨e :: eraseKey k s.viewMain.ll, s.viewMain.cache⟩ }) := by
  cases hm : s.main with
  | none =>
    have hv : s.viewMain = ⟨[], []⟩ := by
      rw [LRU2Q.viewMain, hm]
      rfl
    rw [hv] at hk
    simp at hk
  | some mn =>
    have hv : s.viewMain = mn := by
      rw [LRU2Q.viewMain, hm]
      rfl
    rw [hv] at hk hf
    simp only [LRU2Q.get, hm, if_pos hk, hf, hv]

theorem LRU2Q.get_missMain {s : LRU2Q} {k : Nat} (hk : k ∉ s.viewMain.cache) :
    s.get k = s.getProb k := by
  cases hm : s.main with
  | none => simp [LRU2Q.get, hm]
  | some mn =>
    have hv : s.viewMain = mn := by
      rw [LRU2Q.viewMain, hm]
      rfl
    rw [hv] at hk
    simp [LRU2Q.get, hm, hk]

theorem LRU2Q.remove_eq (s : LRU2Q) (k : Nat) :
    s.remove k = { s with
      main := match s.main with
        | none => none
        | some mn =>
          some (if k ∈ mn.cache then ⟨eraseKey k mn.ll, mn.cache.erase k⟩ else mn),
      prob := match s.prob with
        | none => none
        | some pb =>
          some (if k ∈ pb.qcount then ⟨eraseKey k pb.fifo, pb.qcount.erase k⟩ else pb) } := by
  rcases s with ⟨m, ev, mo, po, lg⟩
  cases mo with
  | none =>
    cases po with
    | none => simp [LRU2Q.remove]
    | some pb =>
      by_cases hq : k ∈ pb.qcount
      · simp [LRU2Q.remove, hq]
      · simp [LRU2Q.remove, hq]
  | some mn =>
    cases po with
    | none =>
      by_cases hk : k ∈ mn.cache
      · simp [LRU2Q.remove, hk]
      · simp [LRU2Q.remove, hk]
    | some pb =>
      by_cases hk : k ∈ mn.cache
      · by_cases hq : k ∈ pb.qcount
        · simp [LRU2Q.remove, hk, hq]
        · simp [LRU2Q.remove, hk, hq]
      · by_cases hq : k ∈ pb.qcount
        · simp [LRU2Q.remove, hk, hq]
        · simp [LRU2Q.remove, hk, hq]

theorem LRU2Q.wfq_get {s : LRU2Q} (h : s.WF) (k : Nat) : (s.get k).2.WF := by
  obtain ⟨⟨hmi, hmc⟩, ⟨hpi, hpc⟩, hdisj⟩ := h
  by_cases hk : k ∈ s.viewMain.cache
  · have hkl : k ∈ keysOf s.viewMain.ll := (hmi.2.2 k).1 hk
    obtain ⟨e, hf, hek, _⟩ := findKey_eq_some_of_mem hkl
    rw [LRU2Q.get_hitMain hk hf]
    simp only [LRU2Q.WF, viewMain_some]
    have hmv := hmi.moveFront hk e.v
    have hThe : (⟨k, e.v⟩ : Entry) = e := by
      cases e
      simp at hek ⊢
      exact hek.symm
    rw [hThe] at hmv
    refine ⟨⟨hmv, ?_⟩, ⟨hpi, hpc⟩, hdisj⟩
    intro hm
    have hdec := length_eraseKey_of_mem hkl
    have hpos : 0 < s.viewMain.ll.length := by
      cases hll : s.viewMain.ll with
      | nil => rw [hll] at hkl; simp [keysOf] at hkl
      | cons a t => simp
    have := hmc hm
    simp only [List.length_cons, hdec]
    push_cast
    omega
  · rw [LRU2Q.get_missMain hk]
    by_cases hq : k ∈ s.viewProb.qcount
    · have hkl : k ∈ keysOf s.viewProb.fifo := (hpi.2.2 k).1 hq
      obtain ⟨kv, hf, hkv, _⟩ := findKey_eq_some_of_mem hkl
      rw [LRU2Q.getProb_promote hq hf]
      simp only [LRU2Q.WF, viewMain_some, viewProb_some]
      have hiwf2 := evictBackPair_iwf hmi
        (decide ((s.viewMain.ll.length : Int) = s.maxEntries))
      have hnm := evictBackPair_not_mem s.viewMain.ll hk
        (decide ((s.viewMain.ll.length : Int) = s.maxEntries))
      have hpush : IWF (kv :: (evictBackPair
          (decide ((s.viewMain.ll.length : Int) = s.maxEntries))
          s.viewMain.ll s.viewMain.cache).1)
          (k :: (evictBackPair
          (decide ((s.viewMain.ll.length : Int) = s.maxEntries))
          s.viewMain.ll s.viewMain.cache).2) := by
        have hkve : (⟨k, kv.v⟩ : Entry) = kv := by
          cases kv
          simp at hkv ⊢
          exact hkv.symm
        have := hiwf2.push hnm kv.v
        rwa [hkve] at this
      refine ⟨⟨hpush, ?_⟩, ⟨hpi.eraseOut k, ?_⟩, ?_⟩
      · intro hm
        have := evictBackPair_len s.viewMain.ll s.viewMain.cache
          (decide ((s.viewMain.ll.length : Int) = s.maxEntries))
          hm (hmc hm) (fun hfull => of_decide_eq_true hfull)
          (fun hfalse habs => (of_decide_eq_false hfalse) habs)
        simp only [List.length_cons]
        push_cast
        omega
      · intro hm
        have := hpc hm
        have h2 := length_eraseKey_le k s.viewProb.fifo
        push_cast at this ⊢
        omega
      · intro x hx
        rcases List.mem_cons.1 hx with rfl | hx2
        · exact hpi.2.1.not_mem_erase
        · have hx3 := evictBackPair_mem_le _ hx2
          intro hmem
          exact hdisj x hx3 (List.mem_of_mem_erase hmem)
    · rw [LRU2Q.getProb_miss hq]
      exact ⟨⟨hmi, hmc⟩, ⟨hpi, hpc⟩, hdisj⟩

theorem LRU2Q.viewMain_remove (s : LRU2Q) (k : Nat) :
    (s.remove k).viewMain =
      if k ∈ s.viewMain.cache
        then ⟨eraseKey k s.viewMain.ll, s.viewMain.cache.erase k⟩
        else s.viewMain := by
  rw [LRU2Q.remove_eq]
  cases hm : s.main with
  | none => simp [LRU2Q.viewMain, hm]
  | some mn => simp [LRU2Q.viewMain, hm]

theorem LRU2Q.viewProb_remove (s : LRU2Q) (k : Nat) :
    (s.remove k).viewProb =
      if k ∈ s.viewProb.qcount
        then ⟨eraseKey k s.viewProb.fifo, s.viewProb.qcount.erase k⟩
        else s.viewProb := by
  rw [LRU2Q.remove_eq]
  cases hp : s.prob with
  | none => simp [LRU2Q.viewProb, hp]
  | some pb => simp [LRU2Q.viewProb, hp]

theorem LRU2Q.maxEntries_remove (s : LRU2Q) (k : Nat) :
    (s.remove k).maxEntries = s.maxEntries := by
  rw [LRU2Q.remove_eq]

theorem LRU2Q.wfq_remove {s : LRU2Q} (h : s.WF) (k : Nat) : (s.remove k).WF := by
  obtain ⟨⟨hmi, hmc⟩, ⟨hpi, hpc⟩, hdisj⟩ := h
  refine ⟨⟨?_, ?_⟩, ⟨?_, ?_⟩, ?_⟩
  · rw [LRU2Q.viewMain_remove]
    by_cases hk : k ∈ s.viewMain.cache
    · simpa [hk] using hmi.eraseOut k
    · simpa [hk] using hmi
  · rw [LRU2Q.viewMain_remove, LRU2Q.maxEntries_remove]
    by_cases hk : k ∈ s.viewMain.cache
    · intro hm
      have := hmc hm
      have h2 := length_eraseKey_le k s.viewMain.ll
      simp only [if_pos hk]
      push_cast at this ⊢
      omega
    · simpa [hk] using hmc
  · rw [LRU2Q.viewProb_remove]
    by_cases hq : k ∈ s.viewProb.qcount
    · simpa [hq] using hpi.eraseOut k
    · simpa [hq] using hpi
  · rw [LRU2Q.viewProb_remove, LRU2Q.maxEntries_remove]
    by_cases hq : k ∈ s.viewProb.qcount
    · intro hm
      have := hpc hm
      have h2 := length_eraseKey_le k s.viewProb.fifo
      simp only [if_pos hq]
      push_cast at this ⊢
      omega
    · simpa [hq] using hpc
  · intro x hx
    rw [LRU2Q.viewMain_remove] at hx
    rw [LRU2Q.viewProb_remove]
    by_cases hk : k ∈ s.viewMain.cache <;> by_cases hq : k ∈ s.viewProb.qcount
    · rw [if_pos hk] at hx
      rw [if_pos hq]
      simp only at hx
      have hx2 := List.mem_of_mem_erase hx
      intro hmem
      exact hdisj x hx2 (List.mem_of_mem_erase hmem)
    · rw [if_pos hk] at hx
      rw [if_neg hq]
      simp only at hx
      exact hdisj x (List.mem_of_mem_erase hx)
    · rw [if_neg hk] at hx
      rw [if_pos hq]
      intro hmem
      exact hdisj x hx (List.mem_of_mem_erase hmem)
    · rw [if_neg hk] at hx
      rw [if_neg hq]
      exact hdisj x hx

theorem LRU2Q.wfq_clear {s : LRU2Q} (h : s.WF) : s.clear.WF := by
  refine ⟨⟨IWF.nil, ?_⟩, ⟨IWF.nil, ?_⟩, ?_⟩
  · intro hm
    simp only [LRU2Q.clear] at hm ⊢
    simp [LRU2Q.viewMain]
    omega
  · intro hm
    simp only [LRU2Q.clear] at hm ⊢
    simp [LRU2Q.viewProb]
    omega
  · intro x hx
    simp [LRU2Q.clear, LRU2Q.viewMain] at hx

theorem LRU2Q.wfq_step {s : LRU2Q} (h : s.WF) (op : Op) : (s.step op).WF := by
  cases op with
  | add k v => exact LRU2Q.wfq_add h k v
  | get k => exact LRU2Q.wfq_get h k
  | remove k => exact LRU2Q.wfq_remove h k
  | clear => exact LRU2Q.wfq_clear h

theorem LRU2Q.wfq_runF (m : Int) (ev : Bool) (ops : List Op) :
    (LRU2Q.runF m ev ops).WF :=
  foldl_invariant LRU2Q.WF LRU2Q.step (fun _ op hs => LRU2Q.wfq_step hs op) ops
    (LRU2Q.fresh m ev) (LRU2Q.wfq_fresh m ev)

/-! ## MQ (src/lru/lrumq.go declares only the `LRUMQ` struct; operations
modelled from the spec) -/

theorem getD_set_self {α : Type} {l : List α} {i : Nat} (h : i < l.length)
    (x d : α) : (l.set i x).getD i d = x := by
  rw [List.getD_eq_getElem?_getD, List.getElem?_set_self h]
  rfl

theorem getD_set_ne {α : Type} {l : List α} {i j : Nat} (h : i ≠ j)
    (x d : α) : (l.set i x).getD j d = l.getD j d := by
  rw [List.getD_eq_getElem?_getD, List.getElem?_set_ne h, ← List.getD_eq_getElem?_getD]

/-- Modelled from the spec: the state of the multi-queue policy.  The
repository declares only the `LRUMQ` struct (src/lru/lrumq.go) and no
methods, so the ladder of recency queues `Q0..Qk`, the bounded history of
`(key, lastTier)` records, and the operations below follow spec sections
4.5 and 3: `tiers` is the ladder (index 0 is `Q0`, front of each list is
most recent), `history` records evicted keys with the tier they held. -/
structure MQ where
  maxEntries : Nat
  numQueues : Nat
  maxHistory : Nat
  tiers : List (List Entry)
  history : List (Nat × Nat)
deriving DecidableEq, Repr

/-- Modelled from the spec: total resident count across all tiers. -/
def MQ.totalLen (s : MQ) : Nat :=
  (s.tiers.map List.length).sum

/-- Modelled from the spec: the tier currently holding `k`, if any. -/
def MQ.findTier (s : MQ) (k : Nat) : Option Nat :=
  s.tiers.findIdx? (fun t => decide (k ∈ keysOf t))

/-- Modelled from the spec: push an eviction record at the front of the
history queue, dropping history's own back record when it is full. -/
def histPush (p : Nat × Nat) (cap : Nat) (h : List (Nat × Nat)) :
    List (Nat × Nat) :=
  if cap < (p :: h).length then (p :: h).dropLast else p :: h

/-- Modelled from the spec: evict the back-most entry of the lowest
non-empty tier and record `(key, tier)` at the front of history. -/
def MQ.evictOne (s : MQ) : MQ :=
  match s.tiers.findIdx? (fun t => !t.isEmpty) with
  | none => s
  | some i =>
    match (s.tiers.getD i []).getLast? with
    | none => s
    | some b =>
      { s with tiers := s.tiers.set i (s.tiers.getD i []).dropLast,
               history := histPush (b.k, i) s.maxHistory s.history }

/-- Modelled from the spec: admit an entry at the front of tier `i`,
first making room (one back-most eviction from the lowest non-empty tier)
when the cache is full.  The spec leaves the exact eviction timing open;
evict-before-insert is the concrete choice taken here. -/
def MQ.insertTier (s : MQ) (i : Nat) (e : Entry) : MQ :=
  let s1 := if s.maxEntries ≤ s.totalLen then s.evictOne else s
  { s1 with tiers := s1.tiers.set i (e :: s1.tiers.getD i []) }

/-- Modelled from the spec: one access of `(k, v)`.  A resident key is
refreshed and promoted one tier (the spec leaves promotion thresholds
open; promote-on-each-reaccess is the concrete choice, capped at the top
tier).  A key found in history re-enters directly at its recorded
`lastTier`, its history record destroyed.  A cold key enters `Q0`. -/
def MQ.access (s : MQ) (k v : Nat) : MQ :=
  match s.findTier k with
  | some i =>
    let t := s.tiers.getD i []
    let e := (findKey k t).getD ⟨k, v⟩
    let s1 := { s with tiers := s.tiers.set i (eraseKey k t) }
    let j := min (i + 1) (s.numQueues - 1)
    { s1 with tiers := s1.tiers.set j (e :: s1.tiers.getD j []) }
  | none =>
    match lookupC k s.history with
    | some t => ({ s with history := eraseC k s.history } : MQ).insertTier t ⟨k, v⟩
    | none => s.insertTier 0 ⟨k, v⟩

theorem MQ.findTier_none_not_mem {s : MQ} {k : Nat}
    (h : s.findTier k = none) (i : Nat) : k ∉ keysOf (s.tiers.getD i []) := by
  have hall := List.findIdx?_eq_none_iff.1 h
  by_cases hi : i < s.tiers.length
  · have hmem : s.tiers.getD i [] ∈ s.tiers := by
      rw [List.getD_eq_getElem?_getD, List.getElem?_eq_getElem hi]
      exact List.getElem_mem hi
    have := hall _ hmem
    simpa using this
  · rw [List.getD_eq_getElem?_getD, List.getElem?_eq_none (by omega)]
    simp

theorem MQ.evictOne_id_of_none {s : MQ}
    (h : s.tiers.findIdx? (fun t => !t.isEmpty) = none) : s.evictOne = s := by
  simp only [MQ.evictOne, h]

theorem MQ.evictOne_id_of_empty {s : MQ} {i : Nat}
    (hi : s.tiers.findIdx? (fun t => !t.isEmpty) = some i)
    (hb : (s.tiers.getD i []).getLast? = none) : s.evictOne = s := by
  simp only [MQ.evictOne, hi, hb]

theorem MQ.evictOne_eq_of_back {s : MQ} {i : Nat} {b : Entry}
    (hi : s.tiers.findIdx? (fun t => !t.isEmpty) = some i)
    (hb : (s.tiers.getD i []).getLast? = some b) :
    s.evictOne = { s with tiers := s.tiers.set i (s.tiers.getD i []).dropLast,
                          history := histPush (b.k, i) s.maxHistory s.history } := by
  simp only [MQ.evictOne, hi, hb]

theorem MQ.evictOne_tiers_length (s : MQ) :
    (s.evictOne).tiers.length = s.tiers.length := by
  cases hi : s.tiers.findIdx? (fun t => !t.isEmpty) with
  | none => rw [MQ.evictOne_id_of_none hi]
  | some i =>
    cases hb : (s.tiers.getD i []).getLast? with
    | none => rw [MQ.evictOne_id_of_empty hi hb]
    | some b =>
      rw [MQ.evictOne_eq_of_back hi hb]
      simp

theorem MQ.evictOne_not_mem {s : MQ} {k : Nat}
    (h : ∀ i, k ∉ keysOf (s.tiers.getD i [])) (i : Nat) :
    k ∉ keysOf ((s.evictOne).tiers.getD i []) := by
  cases hj : s.tiers.findIdx? (fun t => !t.isEmpty) with
  | none =>
    rw [MQ.evictOne_id_of_none hj]
    exact h i
  | some j =>
    cases hb : (s.tiers.getD j []).getLast? with
    | none =>
      rw [MQ.evictOne_id_of_empty hj hb]
      exact h i
    | some b =>
      rw [MQ.evictOne_eq_of_back hj hb]
      simp only
      by_cases hij : j = i
      · subst hij
        by_cases hjl : j < s.tiers.length
        · rw [getD_set_self hjl]
          intro hm
          exact h j (((s.tiers.getD j []).dropLast_sublist.map Entry.k).mem hm)
        · rw [List.getD_eq_getElem?_getD, List.getElem?_eq_none]
          · simp
          · rw [List.length_set]
            omega
      · rw [getD_set_ne hij]
        exact h i

theorem MQ.evictOne_hist_key {s : MQ} {k : Nat}
    (hres : ∀ i, k ∉ keysOf (s.tiers.getD i []))
    (hh : lookupC k s.history = none) :
    lookupC k (s.evictOne).history = none := by
  cases hj : s.tiers.findIdx? (fun t => !t.isEmpty) with
  | none =>
    rw [MQ.evictOne_id_of_none hj]
    exact hh
  | some j =>
    cases hb : (s.tiers.getD j []).getLast? with
    | none =>
      rw [MQ.evictOne_id_of_empty hj hb]
      exact hh
    | some b =>
      rw [MQ.evictOne_eq_of_back hj hb]
      simp only
      have hbk : b.k ≠ k := by
        intro hbk
        apply hres j
        have hbm : b ∈ s.tiers.getD j [] := List.mem_of_mem_getLast? hb
        rw [← hbk]
        exact List.mem_map_of_mem Entry.k hbm
      have hknotin : k ∉ s.history.map Prod.fst := not_mem_of_lookupC_none hh
      apply lookupC_eq_none_of_not_mem
      have hnm : k ∉ ((b.k, j) :: s.history).map Prod.fst := by
        intro hm
        rcases (by simpa using hm) with h1 | h2
        · exact hbk h1.symm
        · exact hknotin (by simpa using h2)
      rw [histPush]
      by_cases hcap : s.maxHistory < ((b.k, j) :: s.history).length
      · rw [if_pos hcap]
        intro hm
        exact hnm (((List.dropLast_sublist _).map Prod.fst).mem hm)
      · rw [if_neg hcap]
        exact hnm

/-! ## Claim theorems -/

theorem evictBackPair_nil (full : Bool) (idx : List Nat) :
    evictBackPair full [] idx = ([], idx) := by
  cases full with
  | false => rfl
  | true => rfl

theorem LRU2Q.len_eq_views (s : LRU2Q) :
    s.len = s.viewMain.ll.length + s.viewProb.fifo.length := by
  rw [LRU2Q.len]
  cases hm : s.main <;> cases hp : s.prob <;>
    simp [LRU2Q.viewMain, LRU2Q.viewProb, hm, hp]

/-- The entries resident in an LRUK cache (the bounded list; pending
counters are not resident). -/
def LRUK.resident (s : LRUK) : List Entry :=
  match s.core with
  | none => []
  | some c => c.ll

/-- The entries resident across both structures of a 2Q cache. -/
def LRU2Q.resident (s : LRU2Q) : List Entry :=
  s.viewMain.ll ++ s.viewProb.fifo

/-- C2: the spec claims that when a second touch promotes a
probation-resident key while main is full, main's back entry is removed
and the eviction callback is invoked with the displaced entry.  The code
removes the back entry but never calls `OnEvicted` on that path (the
callback is invoked only by `Clear`), contradicting both the spec and the
`OnEvicted` field's own documentation.  At capacity 1 with the callback
configured, promoting key 2 displaces entry `(1, 10)` from main, yet the
callback log stays empty. -/
theorem c2_promotion_callback_missing :
    (LRU2Q.runF 1 true
        [Op.add 1 10, Op.add 1 10, Op.add 2 20, Op.add 2 20]).main =
      some ⟨[⟨2, 20⟩], [2]⟩ ∧
    ((LRU2Q.runF 1 true
        [Op.add 1 10, Op.add 1 10, Op.add 2 20, Op.add 2 20]).get 1).1 = none ∧
    (LRU2Q.runF 1 true
        [Op.add 1 10, Op.add 1 10, Op.add 2 20, Op.add 2 20]).evLog = [] := by
  decide

/-- C5: on a fresh LRU-K cache with threshold 2 and any capacity, one Add
leaves the key tracked (pending counter 1) but missing on Get; after the
second Add the key is admitted and Get returns the stored value. -/
theorem c5_lruk_admission_gate (m : Int) (k v : Nat) :
    (((LRUK.fresh m 2 false).add k v).get k).1 = none ∧
    lookupC k (((LRUK.fresh m 2 false).add k v).core.getD ⟨[], [], []⟩).count
      = some 1 ∧
    (((((LRUK.fresh m 2 false).add k v).get k).2.add k v).get k).1 = some v := by
  have h1 : (LRUK.fresh m 2 false).add k v
      = (⟨m, 2, false, some ⟨[], [(k, 1)], []⟩, []⟩ : LRUK) := by
    simp [LRUK.fresh, LRUK.add, lookupC, setC]
  rw [h1]
  refine ⟨?_, ?_, ?_⟩
  · simp [LRUK.get]
  · simp [lookupC]
  · have h2 : (LRUK.get (⟨m, 2, false, some ⟨[], [(k, 1)], []⟩, []⟩ : LRUK) k).2
        = (⟨m, 2, false, some ⟨[], [(k, 2)], []⟩, []⟩ : LRUK) := by
      simp [LRUK.get, lookupC, setC]
    rw [h2]
    have h3 : LRUK.add (⟨m, 2, false, some ⟨[], [(k, 2)], []⟩, []⟩ : LRUK) k v
        = (⟨m, 2, false, some ⟨[⟨k, v⟩], [], [k]⟩, []⟩ : LRUK) := by
      simp [LRUK.add, lookupC, eraseC, evictBackPair_nil]
    rw [h3]
    simp [LRUK.get, findKey]

/-- C8: construction fails (panics) exactly for LRU-K with threshold below
1 and 2Q with non-positive capacity; valid parameters yield an empty cache
on which every key misses.  LRU construction never fails. -/
theorem c8_construction_validation (m kk : Int) (e1 e2 : Bool) :
    (LRUK.kNew m kk e1 = none ↔ kk < 1) ∧
    (∀ s ∈ LRUK.kNew m kk e1, s.len = 0 ∧ ∀ k, (s.get k).1 = none) ∧
    (LRU2Q.qNew m e2 = none ↔ m ≤ 0) ∧
    (∀ s ∈ LRU2Q.qNew m e2, s.len = 0 ∧ ∀ k, (s.get k).1 = none) ∧
    (LRU.lNew m).len = 0 := by
  refine ⟨?_, ?_, ?_, ?_, rfl⟩
  · by_cases h : kk ≤ 0
    · simp [LRUK.kNew, h]
      omega
    · simp [LRUK.kNew, h]
      omega
  · intro s hs
    by_cases h : kk ≤ 0
    · simp [LRUK.kNew, h] at hs
    · simp [LRUK.kNew, h] at hs
      subst hs
      exact ⟨rfl, fun k => by simp [LRUK.get, LRUK.fresh]⟩
  · by_cases h : m ≤ 0
    · simp [LRU2Q.qNew, h]
    · simp [LRU2Q.qNew, h]
  · intro s hs
    by_cases h : m ≤ 0
    · simp [LRU2Q.qNew, h] at hs
    · simp [LRU2Q.qNew, h] at hs
      subst hs
      refine ⟨rfl, fun k => ?_⟩
      simp [LRU2Q.get, LRU2Q.fresh, LRU2Q.getProb]

theorem LRU.maxEntries_step (s : LRU) (op : Op) :
    (s.step op).maxEntries = s.maxEntries := by
  cases op with
  | add k v =>
    simp only [LRU.step, LRU.add]
    split
    · rfl
    · rfl
  | get k =>
    simp only [LRU.step, LRU.get]
    split
    · split
      · rfl
      · rfl
    · rfl
  | remove k =>
    simp only [LRU.step, LRU.remove]
    split
    · rfl
    · rfl
  | clear => rfl

theorem LRU.maxEntries_run (m : Int) (ops : List Op) :
    (LRU.run m ops).maxEntries = m :=
  foldl_invariant (fun s => s.maxEntries = m) LRU.step
    (fun s op hs => by
      show (s.step op).maxEntries = m
      rw [LRU.maxEntries_step]
      exact hs)
    ops (LRU.lNew m) rfl

theorem LRUK.configk_step (s : LRUK) (op : Op) :
    (s.step op).maxEntries = s.maxEntries ∧ (s.step op).maxHitting = s.maxHitting ∧
      (s.step op).onEvicted = s.onEvicted := by
  cases op with
  | add k v =>
    simp only [LRUK.step, LRUK.add]
    split
    · exact ⟨rfl, rfl, rfl⟩
    · split
      · exact ⟨rfl, rfl, rfl⟩
      · exact ⟨rfl, rfl, rfl⟩
  | get k =>
    simp only [LRUK.step, LRUK.get]
    split
    · exact ⟨rfl, rfl, rfl⟩
    · split
      · split
        · exact ⟨rfl, rfl, rfl⟩
        · exact ⟨rfl, rfl, rfl⟩
      · exact ⟨rfl, rfl, rfl⟩
  | remove k =>
    simp only [LRUK.step, LRUK.remove]
    split
    · exact ⟨rfl, rfl, rfl⟩
    · split
      · exact ⟨rfl, rfl, rfl⟩
      · exact ⟨rfl, rfl, rfl⟩
  | clear => exact ⟨rfl, rfl, rfl⟩

theorem LRUK.configk_runF (m kk : Int) (ev : Bool) (ops : List Op) :
    (LRUK.runF m kk ev ops).maxEntries = m ∧
      (LRUK.runF m kk ev ops).maxHitting = kk ∧
      (LRUK.runF m kk ev ops).onEvicted = ev :=
  foldl_invariant
    (fun s => s.maxEntries = m ∧ s.maxHitting = kk ∧ s.onEvicted = ev) LRUK.step
    (fun s op hs => by
      obtain ⟨h1, h2, h3⟩ := LRUK.configk_step s op
      show (s.step op).maxEntries = m ∧ (s.step op).maxHitting = kk ∧
        (s.step op).onEvicted = ev
      rw [h1, h2, h3]
      exact hs)
    ops (LRUK.fresh m kk ev) ⟨rfl, rfl, rfl⟩

theorem LRU2Q.configq_step (s : LRU2Q) (op : Op) :
    (s.step op).maxEntries = s.maxEntries ∧ (s.step op).onEvicted = s.onEvicted := by
  cases op with
  | add k v =>
    simp only [LRU2Q.step, LRU2Q.add]
    split
    · exact ⟨rfl, rfl⟩
    · split
      · split
        · exact ⟨rfl, rfl⟩
        · exact ⟨rfl, rfl⟩
      · exact ⟨rfl, rfl⟩
  | get k =>
    simp only [LRU2Q.step, LRU2Q.get]
    split
    · simp only [LRU2Q.getProb]
      split
      · exact ⟨rfl, rfl⟩
      · split
        · split
          · exact ⟨rfl, rfl⟩
          · exact ⟨rfl, rfl⟩
        · exact ⟨rfl, rfl⟩
    · split
      · split
        · exact ⟨rfl, rfl⟩
        · simp only [LRU2Q.getProb]
          split
          · exact ⟨rfl, rfl⟩
          · split
            · split
              · exact ⟨rfl, rfl⟩
              · exact ⟨rfl, rfl⟩
            · exact ⟨rfl, rfl⟩
      · simp only [LRU2Q.getProb]
        split
        · exact ⟨rfl, rfl⟩
        · split
          · split
            · exact ⟨rfl, rfl⟩
            · exact ⟨rfl, rfl⟩
          · exact ⟨rfl, rfl⟩
  | remove k =>
    rw [LRU2Q.step, LRU2Q.remove_eq]
    exact ⟨rfl, rfl⟩
  | clear => exact ⟨rfl, rfl⟩

theorem LRU2Q.configq_runF (m : Int) (ev : Bool) (ops : List Op) :
    (LRU2Q.runF m ev ops).maxEntries = m ∧ (LRU2Q.runF m ev ops).onEvicted = ev :=
  foldl_invariant (fun s => s.maxEntries = m ∧ s.onEvicted = ev) LRU2Q.step
    (fun s op hs => by
      obtain ⟨h1, h2⟩ := LRU2Q.configq_step s op
      show (s.step op).maxEntries = m ∧ (s.step op).onEvicted = ev
      rw [h1, h2]
      exact hs)
    ops (LRU2Q.fresh m ev) ⟨rfl, rfl⟩

/-- C1: from a fresh instance with positive `MaxEntries`, after any
sequence of Add/Get/Remove/Clear calls, `Len` never exceeds `MaxEntries`
for LRU and LRU-K, and never exceeds the sum of the two per-structure
bounds (`2 * MaxEntries`) for 2Q. -/
theorem c1_capacity_invariant (m kk : Int) (e1 e2 : Bool) (ops : List Op)
    (hm : 0 < m) :
    ((LRU.run m ops).len : Int) ≤ m ∧
    ((LRUK.runF m kk e1 ops).len : Int) ≤ m ∧
    ((LRU2Q.runF m e2 ops).len : Int) ≤ 2 * m := by
  refine ⟨?_, ?_, ?_⟩
  · have h := LRU.wf_run m ops
    have hmax := LRU.maxEntries_run m ops
    have := h.2 (by rw [hmax]; exact hm)
    rw [hmax] at this
    exact this
  · have h := LRUK.wfk_runF m kk e1 ops
    have hmax := (LRUK.configk_runF m kk e1 ops).1
    rw [LRUK.WF] at h
    rcases hc : (LRUK.runF m kk e1 ops).core with _ | c
    · rw [LRUK.len, hc]
      simp
      omega
    · rw [hc] at h
      rw [LRUK.len, hc]
      have := h.2.2.2 (by rw [hmax]; exact hm)
      rw [hmax] at this
      exact this
  · have h := LRU2Q.wfq_runF m e2 ops
    have hmax := (LRU2Q.configq_runF m e2 ops).1
    obtain ⟨⟨_, hmc⟩, ⟨_, hpc⟩, _⟩ := h
    rw [hmax] at hmc hpc
    have h1 := hmc hm
    have h2 := hpc hm
    rw [LRU2Q.len_eq_views]
    push_cast
    omega

/-- C1 witness at capacity 2 over a concrete mixed call sequence. -/
theorem c1_capacity_invariant_witness :
    (0 : Int) < 2 ∧
    (((LRU.run 2 [Op.add 1 10, Op.add 2 20, Op.add 3 30, Op.get 1,
        Op.remove 2, Op.clear, Op.add 4 40]).len : Int) ≤ 2 ∧
      ((LRUK.runF 2 2 true [Op.add 1 10, Op.add 2 20, Op.add 3 30, Op.get 1,
        Op.remove 2, Op.clear, Op.add 4 40]).len : Int) ≤ 2 ∧
      ((LRU2Q.runF 2 false [Op.add 1 10, Op.add 2 20, Op.add 3 30, Op.get 1,
        Op.remove 2, Op.clear, Op.add 4 40]).len : Int) ≤ 2 * 2) :=
  ⟨by decide,
    c1_capacity_invariant 2 2 true false
      [Op.add 1 10, Op.add 2 20, Op.add 3 30, Op.get 1,
        Op.remove 2, Op.clear, Op.add 4 40] (by decide)⟩

/-- C7: in every reachable state each structure's index is consistent with
its list (`IWF`: at most one entry per key, no duplicate index keys, index
keys exactly the listed keys), and for 2Q no key is indexed by the
probation index and the main index at once. -/
theorem c7_index_consistency (m kk : Int) (e1 e2 : Bool) (ops : List Op) :
    IWF (LRU.run m ops).ll (LRU.run m ops).cache ∧
    (∀ c ∈ (LRUK.runF m kk e1 ops).core, IWF c.ll c.cache) ∧
    (IWF (LRU2Q.runF m e2 ops).viewMain.ll (LRU2Q.runF m e2 ops).viewMain.cache ∧
      IWF (LRU2Q.runF m e2 ops).viewProb.fifo (LRU2Q.runF m e2 ops).viewProb.qcount ∧
      ∀ x, x ∈ (LRU2Q.runF m e2 ops).viewMain.cache →
        x ∉ (LRU2Q.runF m e2 ops).viewProb.qcount) := by
  refine ⟨(LRU.wf_run m ops).1, ?_, ?_⟩
  · intro c hc
    have h := LRUK.wfk_runF m kk e1 ops
    rw [LRUK.WF] at h
    rcases hcore : (LRUK.runF m kk e1 ops).core with _ | c2
    · rw [hcore] at hc
      cases hc
    · rw [hcore] at hc h
      obtain rfl : c = c2 := by
        cases hc
        rfl
      exact h.1
  · obtain ⟨⟨hmi, _⟩, ⟨hpi, _⟩, hdisj⟩ := LRU2Q.wfq_runF m e2 ops
    exact ⟨hmi, hpi, hdisj⟩

/-- C4: with the eviction callback configured, `Clear` appends to the
callback log exactly the resident entries (a permutation: once per entry,
order unspecified), and afterwards `Len` is 0 and every key misses.  LRU
has no callback field, so only its emptying behaviour is stated. -/
theorem c4_clear_semantics (m kk : Int) (ops : List Op) :
    ((LRU.run m ops).clear.len = 0 ∧
      (∀ x, ((LRU.run m ops).clear.get x).1 = none)) ∧
    ((LRUK.runF m kk true ops).clear.len = 0 ∧
      (∀ x, ((LRUK.runF m kk true ops).clear.get x).1 = none) ∧
      (LRUK.runF m kk true ops).clear.evLog
        = (LRUK.runF m kk true ops).evLog ++ (LRUK.runF m kk true ops).clearCalls ∧
      ((LRUK.runF m kk true ops).clearCalls).Perm
        (LRUK.resident (LRUK.runF m kk true ops))) ∧
    ((LRU2Q.runF m true ops).clear.len = 0 ∧
      (∀ x, ((LRU2Q.runF m true ops).clear.get x).1 = none) ∧
      (LRU2Q.runF m true ops).clear.evLog
        = (LRU2Q.runF m true ops).evLog ++ (LRU2Q.runF m true ops).clearCalls ∧
      ((LRU2Q.runF m true ops).clearCalls).Perm
        (LRU2Q.resident (LRU2Q.runF m true ops))) := by
  refine ⟨⟨rfl, fun x => by simp [LRU.clear, LRU.get]⟩, ⟨rfl, ?_, rfl, ?_⟩,
    ⟨rfl, ?_, rfl, ?_⟩⟩
  · intro x
    simp [LRUK.clear, LRUK.get]
  · have hev := (LRUK.configk_runF m kk true ops).2.2
    rw [LRUK.clearCalls, if_pos hev, LRUK.resident]
    rcases hc : (LRUK.runF m kk true ops).core with _ | c
    · exact List.Perm.refl []
    · have h := LRUK.wfk_runF m kk true ops
      rw [LRUK.WF, hc] at h
      exact h.1.filterMap_perm
  · intro x
    simp [LRU2Q.clear, LRU2Q.get, LRU2Q.getProb]
  · have hev := (LRU2Q.configq_runF m true ops).2
    rw [LRU2Q.clearCalls, if_pos hev, LRU2Q.resident]
    have h := LRU2Q.wfq_runF m true ops
    obtain ⟨⟨hmi, _⟩, ⟨hpi, _⟩, _⟩ := h
    refine List.Perm.append ?_ ?_
    · rcases hm : (LRU2Q.runF m true ops).main with _ | mn
      · have hv : (LRU2Q.runF m true ops).viewMain = ⟨[], []⟩ := by
          rw [LRU2Q.viewMain, hm]
          rfl
        rw [hv]
      · have hv : (LRU2Q.runF m true ops).viewMain = mn := by
          rw [LRU2Q.viewMain, hm]
          rfl
        rw [hv]
        rw [hv] at hmi
        exact hmi.filterMap_perm
    · rcases hp : (LRU2Q.runF m true ops).prob with _ | pb
      · have hv : (LRU2Q.runF m true ops).viewProb = ⟨[], []⟩ := by
          rw [LRU2Q.viewProb, hp]
          rfl
        rw [hv]
      · have hv : (LRU2Q.runF m true ops).viewProb = pb := by
          rw [LRU2Q.viewProb, hp]
          rfl
        rw [hv]
        rw [hv] at hpi
        exact hpi.filterMap_perm

/-- C10: after `Clear`, LRU-K and 2Q stay total and behave as empty: `Len`
is 0, `Get` misses and (LRU-K) leaves the state untouched — in particular
no pending-access counter is created by a post-Clear `Get` — `Remove` is a
no-op, and the next `Add` rebuilds the storage exactly as an `Add` on a
freshly constructed instance does. -/
theorem c10_post_clear_behaviour (m kk : Int) (e1 e2 : Bool) (ops : List Op)
    (k v : Nat) :
    ((LRUK.runF m kk e1 ops).clear.len = 0 ∧
      (LRUK.runF m kk e1 ops).clear.get k = (none, (LRUK.runF m kk e1 ops).clear) ∧
      (LRUK.runF m kk e1 ops).clear.remove k = (LRUK.runF m kk e1 ops).clear ∧
      ((LRUK.runF m kk e1 ops).clear.add k v).core
        = ((LRUK.fresh m kk e1).add k v).core) ∧
    ((LRU2Q.runF m e2 ops).clear.len = 0 ∧
      (LRU2Q.runF m e2 ops).clear.get k = (none, (LRU2Q.runF m e2 ops).clear) ∧
      (LRU2Q.runF m e2 ops).clear.remove k = (LRU2Q.runF m e2 ops).clear ∧
      ((LRU2Q.runF m e2 ops).clear.add k v).main
        = ((LRU2Q.fresh m e2).add k v).main ∧
      ((LRU2Q.runF m e2 ops).clear.add k v).prob
        = ((LRU2Q.fresh m e2).add k v).prob) := by
  refine ⟨⟨rfl, rfl, rfl, ?_⟩, ⟨rfl, rfl, rfl, ?_, ?_⟩⟩
  · have hkk : (LRUK.runF m kk e1 ops).maxHitting = kk :=
      (LRUK.configk_runF m kk e1 ops).2.1
    simp only [LRUK.clear, LRUK.add, LRUK.fresh, Option.getD_some]
    simp only [List.not_mem_nil, if_neg, lookupC, Option.getD_none, evictBackPair_nil]
    rw [hkk]
    by_cases h1 : (1 : Int) < kk <;> simp [h1]
  · simp only [LRU2Q.clear, LRU2Q.add, LRU2Q.fresh, LRU2Q.viewMain, LRU2Q.viewProb,
      Option.getD_some, Option.getD_none]
    simp [evictBackPair_nil]
  · simp only [LRU2Q.clear, LRU2Q.add, LRU2Q.fresh, LRU2Q.viewMain, LRU2Q.viewProb,
      Option.getD_some, Option.getD_none]
    simp [evictBackPair_nil]

theorem LRUK.remove_evLog (s : LRUK) (k : Nat) : (s.remove k).evLog = s.evLog := by
  simp only [LRUK.remove]
  split
  · rfl
  · split
    · rfl
    · rfl

theorem LRU2Q.remove_noop {s : LRU2Q} {k : Nat}
    (hk : k ∉ s.viewMain.cache) (hq : k ∉ s.viewProb.qcount) :
    s.remove k = s := by
  rw [LRU2Q.remove_eq]
  rcases s with ⟨m, ev, mo, po, lg⟩
  cases mo with
  | none =>
    cases po with
    | none => rfl
    | some pb =>
      rw [LRU2Q.viewProb_some] at hq
      simp [hq]
  | some mn =>
    rw [LRU2Q.viewMain_some] at hk
    cases po with
    | none => simp [hk]
    | some pb =>
      rw [LRU2Q.viewProb_some] at hq
      simp [hk, hq]

/-- C3: for each policy, `Remove` of an absent key changes nothing;
`Remove` of a present key erases it from every list and index, so `Get`
then misses, and (LRU-K) no pending counter exists for it afterwards; the
eviction callback log is never touched by `Remove`. -/
theorem c3_remove_semantics (m kk : Int) (e1 e2 : Bool) (ops : List Op) (k : Nat) :
    ((k ∉ (LRU.run m ops).cache → (LRU.run m ops).remove k = LRU.run m ops) ∧
      (k ∈ (LRU.run m ops).cache →
        ((LRU.run m ops).remove k).get k = (none, (LRU.run m ops).remove k) ∧
        k ∉ ((LRU.run m ops).remove k).cache ∧
        k ∉ keysOf ((LRU.run m ops).remove k).ll)) ∧
    (((∀ c ∈ (LRUK.runF m kk e1 ops).core, k ∉ c.cache) →
        (LRUK.runF m kk e1 ops).remove k = LRUK.runF m kk e1 ops) ∧
      (∀ c ∈ (LRUK.runF m kk e1 ops).core, k ∈ c.cache →
        (((LRUK.runF m kk e1 ops).remove k).get k).1 = none ∧
        ∀ c2 ∈ ((LRUK.runF m kk e1 ops).remove k).core,
          k ∉ c2.cache ∧ k ∉ keysOf c2.ll ∧ lookupC k c2.count = none) ∧
      ((LRUK.runF m kk e1 ops).remove k).evLog = (LRUK.runF m kk e1 ops).evLog) ∧
    ((k ∉ (LRU2Q.runF m e2 ops).viewMain.cache →
        k ∉ (LRU2Q.runF m e2 ops).viewProb.qcount →
        (LRU2Q.runF m e2 ops).remove k = LRU2Q.runF m e2 ops) ∧
      ((k ∈ (LRU2Q.runF m e2 ops).viewMain.cache ∨
          k ∈ (LRU2Q.runF m e2 ops).viewProb.qcount) →
        ((LRU2Q.runF m e2 ops).remove k).get k
          = (none, (LRU2Q.runF m e2 ops).remove k) ∧
        k ∉ ((LRU2Q.runF m e2 ops).remove k).viewMain.cache ∧
        k ∉ keysOf ((LRU2Q.runF m e2 ops).remove k).viewMain.ll ∧
        k ∉ ((LRU2Q.runF m e2 ops).remove k).viewProb.qcount ∧
        k ∉ keysOf ((LRU2Q.runF m e2 ops).remove k).viewProb.fifo) ∧
      ((LRU2Q.runF m e2 ops).remove k).evLog = (LRU2Q.runF m e2 ops).evLog) := by
  refine ⟨⟨?_, ?_⟩, ⟨?_, ?_, LRUK.remove_evLog _ k⟩, ⟨?_, ?_, ?_⟩⟩
  · intro hk
    simp [LRU.remove, hk]
  · intro hk
    obtain ⟨⟨hnk, hnc, hiff⟩, _⟩ := LRU.wf_run m ops
    have h1 : k ∉ ((LRU.run m ops).remove k).cache := by
      simp only [LRU.remove, if_pos hk]
      exact hnc.not_mem_erase
    have h2 : k ∉ keysOf ((LRU.run m ops).remove k).ll := by
      simp only [LRU.remove, if_pos hk]
      rw [keysOf_eraseKey]
      exact hnk.not_mem_erase
    exact ⟨by simp [LRU.get, h1], h1, h2⟩
  · intro hk
    rcases hc : (LRUK.runF m kk e1 ops).core with _ | c
    · simp [LRUK.remove, hc]
    · have := hk c (by rw [hc]; rfl)
      simp [LRUK.remove, hc, this]
  · intro c hc hk
    have h := LRUK.wfk_runF m kk e1 ops
    rw [LRUK.WF] at h
    rcases hcore : (LRUK.runF m kk e1 ops).core with _ | c2
    · rw [hcore] at hc
      cases hc
    · rw [hcore] at hc h
      obtain rfl : c = c2 := by
        cases hc
        rfl
      obtain ⟨⟨hnk, hnc, hiff⟩, hcnt, hdisj, _⟩ := h
      have hrem : (LRUK.runF m kk e1 ops).remove k
          = { LRUK.runF m kk e1 ops with
              core := some ⟨eraseKey k c.ll, c.count, c.cache.erase k⟩ } := by
        simp [LRUK.remove, hcore, hk]
      have h1 : k ∉ c.cache.erase k := hnc.not_mem_erase
      have h2 : k ∉ keysOf (eraseKey k c.ll) := by
        rw [keysOf_eraseKey]
        exact hnk.not_mem_erase
      refine ⟨?_, ?_⟩
      · rw [hrem]
        simp [LRUK.get, h1]
      · intro c2 hc2
        rw [hrem] at hc2
        obtain rfl : c2 = { c with ll := eraseKey k c.ll, cache := c.cache.erase k } := by
          cases hc2
          rfl
        exact ⟨h1, h2, hdisj k hk⟩
  · intro hk hq
    exact LRU2Q.remove_noop hk hq
  · intro hmem
    obtain ⟨⟨hmi, _⟩, ⟨hpi, _⟩, hdisj⟩ := LRU2Q.wfq_runF m e2 ops
    have h1 : k ∉ ((LRU2Q.runF m e2 ops).remove k).viewMain.cache := by
      rw [LRU2Q.viewMain_remove]
      by_cases hk : k ∈ (LRU2Q.runF m e2 ops).viewMain.cache
      · rw [if_pos hk]
        exact hmi.2.1.not_mem_erase
      · rw [if_neg hk]
        exact hk
    have h2 : k ∉ keysOf ((LRU2Q.runF m e2 ops).remove k).viewMain.ll := by
      rw [LRU2Q.viewMain_remove]
      by_cases hk : k ∈ (LRU2Q.runF m e2 ops).viewMain.cache
      · rw [if_pos hk]
        simp only
        rw [keysOf_eraseKey]
        exact hmi.1.not_mem_erase
      · rw [if_neg hk]
        intro hm
        exact hk ((hmi.2.2 k).2 hm)
    have h3 : k ∉ ((LRU2Q.runF m e2 ops).remove k).viewProb.qcount := by
      rw [LRU2Q.viewProb_remove]
      by_cases hq : k ∈ (LRU2Q.runF m e2 ops).viewProb.qcount
      · rw [if_pos hq]
        exact hpi.2.1.not_mem_erase
      · rw [if_neg hq]
        exact hq
    have h4 : k ∉ keysOf ((LRU2Q.runF m e2 ops).remove k).viewProb.fifo := by
      rw [LRU2Q.viewProb_remove]
      by_cases hq : k ∈ (LRU2Q.runF m e2 ops).viewProb.qcount
      · rw [if_pos hq]
        simp only
        rw [keysOf_eraseKey]
        exact hpi.1.not_mem_erase
      · rw [if_neg hq]
        intro hm
        exact hq ((hpi.2.2 k).2 hm)
    refine ⟨?_, h1, h2, h3, h4⟩
    rw [LRU2Q.get_missMain h1, LRU2Q.getProb_miss h3]
  · rw [LRU2Q.remove_eq]

/-- C3 witness: Remove of a present key on each policy followed by a
missing Get, at concrete states. -/
theorem c3_remove_semantics_witness :
    ((LRU.run 2 [Op.add 1 10, Op.add 2 20]).remove 1).get 1
        = (none, (LRU.run 2 [Op.add 1 10, Op.add 2 20]).remove 1) ∧
    (((LRUK.runF 0 1 true [Op.add 3 30]).remove 3).get 3).1 = none ∧
    ((LRU2Q.runF 2 true [Op.add 7 70, Op.add 7 70]).remove 7).get 7
        = (none, (LRU2Q.runF 2 true [Op.add 7 70, Op.add 7 70]).remove 7) :=
  ⟨((c3_remove_semantics 2 1 true true [Op.add 1 10, Op.add 2 20] 1).1.2
      (by decide)).1,
    ((c3_remove_semantics 0 1 true true [Op.add 3 30] 3).2.1.2.1
      ⟨[⟨3, 30⟩], [], [3]⟩ (by decide) (by decide)).1,
    ((c3_remove_semantics 2 1 true true [Op.add 7 70, Op.add 7 70] 7).2.2.2.1
      (by decide)).1⟩

/-- C9: (MQ, modelled from the spec) re-accessing a key whose
`(key, lastTier)` record is still in history, while the key is not
resident, removes the record and re-admits the entry at the front of tier
`lastTier` — not `Q0` — preserving its prior frequency standing. -/
theorem c9_mq_history_readmission (s : MQ) (k v T : Nat)
    (hres : s.findTier k = none)
    (hh : lookupC k s.history = some T)
    (hT : T < s.tiers.length)
    (hnd : (s.history.map Prod.fst).Nodup) :
    (((s.access k v).tiers.getD T []).head? = some ⟨k, v⟩) ∧
    lookupC k (s.access k v).history = none ∧
    (T ≠ 0 → k ∉ keysOf ((s.access k v).tiers.getD 0 [])) := by
  have hacc : s.access k v
      = ({ s with history := eraseC k s.history } : MQ).insertTier T ⟨k, v⟩ := by
    simp only [MQ.access, hres, hh]
  set s1 : MQ := { s with history := eraseC k s.history } with hs1
  have hs1t : s1.tiers = s.tiers := rfl
  have hs1h : lookupC k s1.history = none := lookupC_eraseC_self hnd
  have hs1res : ∀ i, k ∉ keysOf (s1.tiers.getD i []) := by
    intro i
    rw [hs1t]
    exact MQ.findTier_none_not_mem hres i
  set s2 : MQ := if s1.maxEntries ≤ s1.totalLen then s1.evictOne else s1 with hs2
  have hins : s.access k v
      = { s2 with tiers := s2.tiers.set T (⟨k, v⟩ :: s2.tiers.getD T []) } := by
    rw [hacc]
    rw [MQ.insertTier]
  have hs2len : s2.tiers.length = s.tiers.length := by
    rw [hs2]
    by_cases hfull : s1.maxEntries ≤ s1.totalLen
    · rw [if_pos hfull, MQ.evictOne_tiers_length, hs1t]
    · rw [if_neg hfull, hs1t]
  have hs2res : ∀ i, k ∉ keysOf (s2.tiers.getD i []) := by
    intro i
    rw [hs2]
    by_cases hfull : s1.maxEntries ≤ s1.totalLen
    · rw [if_pos hfull]
      exact MQ.evictOne_not_mem hs1res i
    · rw [if_neg hfull]
      exact hs1res i
  have hs2h : lookupC k s2.history = none := by
    rw [hs2]
    by_cases hfull : s1.maxEntries ≤ s1.totalLen
    · rw [if_pos hfull]
      exact MQ.evictOne_hist_key hs1res hs1h
    · rw [if_neg hfull]
      exact hs1h
  refine ⟨?_, ?_, ?_⟩
  · rw [hins]
    simp only
    rw [getD_set_self (by rw [hs2len]; exact hT)]
    rfl
  · rw [hins]
    exact hs2h
  · intro hT0
    rw [hins]
    simp only
    rw [getD_set_ne hT0]
    exact hs2res 0

/-- C9 witness: a key with history record `(5, 1)` and an otherwise
occupied cache re-enters at tier 1, skipping `Q0`. -/
theorem c9_mq_history_readmission_witness :
    ((MQ.access ⟨2, 2, 2, [[], [⟨9, 1⟩]], [(5, 1)]⟩ 5 7).tiers.getD 1 []).head?
        = some ⟨5, 7⟩ ∧
    lookupC 5 (MQ.access ⟨2, 2, 2, [[], [⟨9, 1⟩]], [(5, 1)]⟩ 5 7).history = none ∧
    (1 ≠ 0 → 5 ∉ keysOf ((MQ.access ⟨2, 2, 2, [[], [⟨9, 1⟩]], [(5, 1)]⟩ 5 7).tiers.getD 0 [])) :=
  c9_mq_history_readmission ⟨2, 2, 2, [[], [⟨9, 1⟩]], [(5, 1)]⟩ 5 7 1
    (by decide) (by decide) (by decide) (by decide)

/-- C6 counterexample: at capacity N = 1 the claim's second half fails.
With keys 1, 2: Add 1; Get 1 (the intervening refresh); Add 2.  The claim
says the refresh makes k2 the evicted key, but k1 is the sole resident
entry, stays the back element, and is evicted: afterwards Get 1 misses
while Get 2 hits. -/
theorem c6_counterexample :
    (((((LRU.lNew 1).add 1 10).get 1).2.add 2 20).get 1).1 = none ∧
    (((((LRU.lNew 1).add 1 10).get 1).2.add 2 20).get 2).1 = some 20 := by
  decide

theorem findKey_cons_self {e : Entry} {k : Nat} (h : e.k = k) (l : List Entry) :
    findKey k (e :: l) = some e := by
  simp [findKey, List.find?_cons, h]

theorem findKey_cons_ne {e : Entry} {k : Nat} (h : ¬ e.k = k) (l : List Entry) :
    findKey k (e :: l) = findKey k l := by
  simp [findKey, List.find?_cons, h]

theorem LRU.get_fst_hit {s : LRU} {k : Nat} (hc : k ∈ s.cache) {e : Entry}
    (hf : findKey k s.ll = some e) : (s.get k).1 = some e.v := by
  simp [LRU.get, hc, hf]

theorem LRU.get_fst_miss {s : LRU} {k : Nat} (hc : k ∉ s.cache) :
    (s.get k).1 = none := by
  simp [LRU.get, hc]

/-- The keys `f n, f (n-1), ..., f 1` front to back: the LRU order after
adding `f 1 .. f n` in sequence. -/
def descK (f : Nat → Nat) : Nat → List Nat
  | 0 => []
  | n + 1 => f (n + 1) :: descK f n

/-- The entries `(f n, g n), ..., (f 1, g 1)` front to back. -/
def descE (f g : Nat → Nat) : Nat → List Entry
  | 0 => []
  | n + 1 => ⟨f (n + 1), g (n + 1)⟩ :: descE f g n

/-- Adding `(f 1, g 1) .. (f n, g n)` in order. -/
def LRU.addSeq (f g : Nat → Nat) : Nat → LRU → LRU
  | 0, s => s
  | n + 1, s => (LRU.addSeq f g n s).add (f (n + 1)) (g (n + 1))

theorem length_descE (f g : Nat → Nat) (n : Nat) : (descE f g n).length = n := by
  induction n with
  | zero => rfl
  | succ n ih => simp [descE, ih]

theorem keysOf_descE (f g : Nat → Nat) (n : Nat) :
    keysOf (descE f g n) = descK f n := by
  induction n with
  | zero => rfl
  | succ n ih => simp [descE, descK, ih]

theorem mem_descK {f : Nat → Nat} {x n : Nat} :
    x ∈ descK f n ↔ ∃ i, 1 ≤ i ∧ i ≤ n ∧ f i = x := by
  induction n with
  | zero =>
    simp [descK]
    omega
  | succ n ih =>
    rw [descK, List.mem_cons, ih]
    constructor
    · rintro (rfl | ⟨i, h1, h2, rfl⟩)
      · exact ⟨n + 1, by omega, by omega, rfl⟩
      · exact ⟨i, h1, by omega, rfl⟩
    · rintro ⟨i, h1, h2, rfl⟩
      by_cases hi : i = n + 1
      · subst hi
        exact Or.inl rfl
      · exact Or.inr ⟨i, h1, by omega, rfl⟩

theorem nodup_descK {f : Nat → Nat} {n : Nat}
    (hinj : ∀ i j, i < n → j < n → f (i + 1) = f (j + 1) → i = j) :
    (descK f n).Nodup := by
  induction n with
  | zero => simp [descK]
  | succ n ih =>
    rw [descK]
    refine List.nodup_cons.2 ⟨?_, ih fun i j hi hj h => hinj i j (by omega) (by omega) h⟩
    intro hmem
    obtain ⟨i, h1, h2, hf⟩ := mem_descK.1 hmem
    have := hinj (i - 1) n (by omega) (by omega) (by rw [Nat.sub_add_cancel h1, hf])
    omega

theorem getLast?_descE {f g : Nat → Nat} {n : Nat} (h : 0 < n) :
    (descE f g n).getLast? = some ⟨f 1, g 1⟩ := by
  induction n with
  | zero => omega
  | succ n ih =>
    cases n with
    | zero => rfl
    | succ n2 =>
      rw [descE, descE]
      rw [List.getLast?_cons_cons]
      rw [← descE]
      exact ih (by omega)

theorem dropLast_descE (f g : Nat → Nat) (n : Nat) :
    (descE f g (n + 1)).dropLast
      = descE (fun i => f (i + 1)) (fun i => g (i + 1)) n := by
  induction n with
  | zero => rfl
  | succ n ih =>
    rw [descE, descE, List.dropLast_cons₂, ← descE]
    rw [ih]
    rfl

theorem findKey_descE {f g : Nat → Nat} {n i : Nat}
    (hinj : ∀ a b, a < n → b < n → f (a + 1) = f (b + 1) → a = b)
    (h1 : 1 ≤ i) (h2 : i ≤ n) :
    findKey (f i) (descE f g n) = some ⟨f i, g i⟩ := by
  induction n with
  | zero => omega
  | succ n ih =>
    by_cases hi : i = n + 1
    · subst hi
      exact findKey_cons_self rfl _
    · rw [descE, findKey_cons_ne]
      · exact ih (fun a b ha hb h => hinj a b (by omega) (by omega) h) (by omega)
      · intro hf
        have := hinj n (i - 1) (by omega) (by omega)
          (by rw [Nat.sub_add_cancel h1]; exact hf)
        omega

theorem eraseKey_descE {f g : Nat → Nat} {n : Nat}
    (hinj : ∀ a b, a < n + 1 → b < n + 1 → f (a + 1) = f (b + 1) → a = b) :
    eraseKey (f 1) (descE f g (n + 1))
      = descE (fun i => f (i + 1)) (fun i => g (i + 1)) n := by
  induction n with
  | zero => simp [descE, eraseKey]
  | succ n ih =>
    rw [descE, eraseKey]
    rw [if_neg]
    · rw [ih (fun a b ha hb h => hinj a b (by omega) (by omega) h)]
      rfl
    · intro hf
      have := hinj (n + 1) 0 (by omega) (by omega) (by simpa using hf)
      omega

theorem LRU.get_snd_hit {s : LRU} {k : Nat} (hc : k ∈ s.cache) {e : Entry}
    (hf : findKey k s.ll = some e) :
    (s.get k).2 = { s with ll := e :: eraseKey k s.ll } := by
  simp [LRU.get, hc, hf]

theorem LRU.addSeq_lNew {f g : Nat → Nat} {n : Nat} {m : Int}
    (hinj : ∀ a b, a < n → b < n → f (a + 1) = f (b + 1) → a = b)
    (hnm : (n : Int) ≤ m) :
    LRU.addSeq f g n (LRU.lNew m) = ⟨m, descE f g n, descK f n⟩ := by
  induction n with
  | zero => rfl
  | succ n ih =>
    rw [LRU.addSeq,
      ih (fun a b ha hb h => hinj a b (by omega) (by omega) h)
        (by push_cast at hnm ⊢; omega)]
    have hmem : f (n + 1) ∉ descK f n := by
      intro hm
      obtain ⟨i, h1, h2, hf⟩ := mem_descK.1 hm
      have := hinj (i - 1) n (by omega) (by omega)
        (by rw [Nat.sub_add_cancel h1]; exact hf)
      omega
    have hprop : ¬ (0 < m ∧
        (((⟨m, descE f g n, descK f n⟩ : LRU).ll.length : Int)
          = (⟨m, descE f g n, descK f n⟩ : LRU).maxEntries)) := by
      intro hcon
      have := hcon.2
      simp only [length_descE] at this
      push_cast at hnm
      omega
    simp only [LRU.add, if_neg hmem, decide_eq_false hprop, evictBackPair,
      Bool.false_eq_true, if_false]
    rfl

theorem LRU.add_full {s : LRU} {k : Nat} (hk : k ∉ s.cache)
    (hfull : 0 < s.maxEntries ∧ (s.ll.length : Int) = s.maxEntries)
    {b : Entry} (hb : s.ll.getLast? = some b) (v : Nat) :
    s.add k v = ⟨s.maxEntries, ⟨k, v⟩ :: s.ll.dropLast, k :: s.cache.erase b.k⟩ := by
  simp only [LRU.add, if_neg hk, decide_eq_true hfull, evictBackPair, if_true, hb]

/-- C6 (amended): with capacity N ≥ 1 and distinct keys `f 1 .. f (N+1)`,
adding them in order evicts exactly `f 1`: it then misses while
`f 2 .. f (N+1)` hit with their stored values.  With an intervening
`Get (f 1)` before the last Add, the evicted key is `f 2` instead —
provided N ≥ 2; at N = 1 the refreshed `f 1` is still the sole (hence
back) entry and is evicted anyway (see the counterexample). -/
theorem c6_lru_eviction_order (N : Nat) (f g : Nat → Nat)
    (hN : 1 ≤ N)
    (hinj : ∀ i ∈ List.range (N + 1), ∀ j ∈ List.range (N + 1),
      f (i + 1) = f (j + 1) → i = j) :
    ((((LRU.addSeq f g N (LRU.lNew (N : Int))).add (f (N + 1)) (g (N + 1))).get
        (f 1)).1 = none ∧
      (∀ i, 2 ≤ i → i ≤ N + 1 →
        (((LRU.addSeq f g N (LRU.lNew (N : Int))).add (f (N + 1)) (g (N + 1))).get
          (f i)).1 = some (g i))) ∧
    (2 ≤ N →
      ((((LRU.addSeq f g N (LRU.lNew (N : Int))).get (f 1)).2.add
          (f (N + 1)) (g (N + 1))).get (f 2)).1 = none ∧
      ((((LRU.addSeq f g N (LRU.lNew (N : Int))).get (f 1)).2.add
          (f (N + 1)) (g (N + 1))).get (f 1)).1 = some (g 1) ∧
      (∀ i, 3 ≤ i → i ≤ N + 1 →
        ((((LRU.addSeq f g N (LRU.lNew (N : Int))).get (f 1)).2.add
            (f (N + 1)) (g (N + 1))).get (f i)).1 = some (g i))) := by
  have hI : ∀ a b, a < N + 1 → b < N + 1 → f (a + 1) = f (b + 1) → a = b :=
    fun a b ha hb h => hinj a (List.mem_range.2 ha) b (List.mem_range.2 hb) h
  have hIN : ∀ a b, a < N → b < N → f (a + 1) = f (b + 1) → a = b :=
    fun a b ha hb h => hI a b (by omega) (by omega) h
  have hseq := LRU.addSeq_lNew (f := f) (g := g) (m := (N : Int)) hIN (le_refl _)
  have hnd : (descK f N).Nodup := nodup_descK hIN
  have hmemN1 : f (N + 1) ∉ descK f N := by
    intro hm
    obtain ⟨i, h1, h2, hf⟩ := mem_descK.1 hm
    have := hI (i - 1) N (by omega) (by omega)
      (by rw [Nat.sub_add_cancel h1]; exact hf)
    omega
  have hne1N1 : f 1 ≠ f (N + 1) := by
    intro hf
    have := hI 0 N (by omega) (by omega) (by simpa using hf)
    omega
  constructor
  · -- part 1: no intervening Get
    have hfull : 0 < ((⟨(N : Int), descE f g N, descK f N⟩ : LRU).maxEntries) ∧
        (((⟨(N : Int), descE f g N, descK f N⟩ : LRU).ll.length : Int)
          = (⟨(N : Int), descE f g N, descK f N⟩ : LRU).maxEntries) := by
      constructor
      · simp only
        exact_mod_cast hN
      · simp only [length_descE]
    have hgl : ((⟨(N : Int), descE f g N, descK f N⟩ : LRU).ll.getLast?)
        = some ⟨f 1, g 1⟩ := getLast?_descE hN
    have hF1 : (LRU.addSeq f g N (LRU.lNew (N : Int))).add (f (N + 1)) (g (N + 1))
        = ⟨(N : Int), ⟨f (N + 1), g (N + 1)⟩ :: (descE f g N).dropLast,
            f (N + 1) :: (descK f N).erase (f 1)⟩ := by
      rw [hseq, LRU.add_full hmemN1 hfull hgl]
    rw [hF1]
    obtain ⟨n, rfl⟩ : ∃ n, N = n + 1 := ⟨N - 1, by omega⟩
    rw [dropLast_descE]
    constructor
    · apply LRU.get_fst_miss
      simp only [List.mem_cons]
      rintro (h1 | h2)
      · exact hne1N1 h1
      · exact hnd.not_mem_erase h2
    · intro i hi2 hiN
      by_cases hiN1 : i = n + 1 + 1
      · subst hiN1
        refine LRU.get_fst_hit (e := ⟨f (n + 1 + 1), g (n + 1 + 1)⟩) ?_ ?_
        · simp
        · exact findKey_cons_self rfl _
      · have hmem : f i ∈ f (n + 1 + 1) :: (descK f (n + 1)).erase (f 1) := by
          refine List.mem_cons.2 (Or.inr ?_)
          rw [hnd.mem_erase_iff]
          refine ⟨?_, mem_descK.2 ⟨i, by omega, by omega, rfl⟩⟩
          intro hf
          have := hI (i - 1) 0 (by omega) (by omega)
            (by rw [Nat.sub_add_cancel (by omega : 1 ≤ i)]; exact hf)
          omega
        refine LRU.get_fst_hit (e := ⟨f i, g i⟩) hmem ?_
        rw [findKey_cons_ne]
        · have hres := findKey_descE
            (f := fun j => f (j + 1)) (g := fun j => g (j + 1)) (n := n) (i := i - 1)
            (fun a b ha hb h => by
              have := hI (a + 1) (b + 1) (by omega) (by omega) h
              omega)
            (by omega) (by omega)
          simp only [] at hres
          have hieq : i - 1 + 1 = i := by omega
          rw [hieq] at hres
          exact hres
        · intro hf
          have := hI (n + 1) (i - 1) (by omega) (by omega)
            (by rw [Nat.sub_add_cancel (by omega : 1 ≤ i)]; exact hf)
          omega
  · -- part 2: intervening Get (f 1)
    intro hN2
    obtain ⟨n, rfl⟩ : ∃ n, N = n + 2 := ⟨N - 2, by omega⟩
    have hmem1 : f 1 ∈ descK f (n + 2) :=
      mem_descK.2 ⟨1, le_refl _, by omega, rfl⟩
    have hfind1 := findKey_descE (f := f) (g := g) (n := n + 2) (i := 1)
      hIN (le_refl _) (by omega)
    have hget1 : ((LRU.addSeq f g (n + 2) (LRU.lNew ((n + 2 : Nat) : Int))).get
        (f 1)).2
        = ⟨((n + 2 : Nat) : Int), ⟨f 1, g 1⟩ :: eraseKey (f 1) (descE f g (n + 2)),
            descK f (n + 2)⟩ := by
      rw [hseq, LRU.get_snd_hit hmem1 hfind1]
    rw [hget1, eraseKey_descE (fun a b ha hb h => hI a b (by omega) (by omega) h)]
    have hfull2 : 0 < (((n + 2 : Nat) : Int)) ∧
        (((⟨f 1, g 1⟩ ::
            descE (fun i => f (i + 1)) (fun i => g (i + 1)) (n + 1)).length : Int)
          = ((n + 2 : Nat) : Int)) := by
      constructor
      · exact_mod_cast Nat.succ_pos (n + 1)
      · simp [length_descE]
        omega
    have hexp : descE (fun i => f (i + 1)) (fun i => g (i + 1)) (n + 1)
        = ⟨f (n + 1 + 1), g (n + 1 + 1)⟩ ::
          descE (fun i => f (i + 1)) (fun i => g (i + 1)) n := rfl
    have hgl2 : ((⟨f 1, g 1⟩ ::
        descE (fun i => f (i + 1)) (fun i => g (i + 1)) (n + 1)).getLast?)
        = some ⟨f 2, g 2⟩ := by
      rw [hexp, List.getLast?_cons_cons, ← hexp]
      exact getLast?_descE (by omega)
    have hdrop2 : ((⟨f 1, g 1⟩ ::
        descE (fun i => f (i + 1)) (fun i => g (i + 1)) (n + 1)).dropLast)
        = ⟨f 1, g 1⟩ :: descE (fun i => f (i + 2)) (fun i => g (i + 2)) n := by
      rw [hexp, List.dropLast_cons₂, ← hexp, dropLast_descE]
    have hF2 : (⟨((n + 2 : Nat) : Int),
          ⟨f 1, g 1⟩ :: descE (fun i => f (i + 1)) (fun i => g (i + 1)) (n + 1),
          descK f (n + 2)⟩ : LRU).add (f (n + 2 + 1)) (g (n + 2 + 1))
        = ⟨((n + 2 : Nat) : Int),
            ⟨f (n + 2 + 1), g (n + 2 + 1)⟩ :: ⟨f 1, g 1⟩ ::
              descE (fun i => f (i + 2)) (fun i => g (i + 2)) n,
            f (n + 2 + 1) :: (descK f (n + 2)).erase (f 2)⟩ := by
      rw [LRU.add_full hmemN1 hfull2 hgl2, hdrop2]
    rw [hF2]
    have hne2N1 : f 2 ≠ f (n + 2 + 1) := by
      intro hf
      have := hI 1 (n + 2) (by omega) (by omega) (by simpa using hf)
      omega
    refine ⟨?_, ?_, ?_⟩
    · apply LRU.get_fst_miss
      simp only [List.mem_cons]
      rintro (h1 | h2)
      · exact hne2N1 h1
      · exact hnd.not_mem_erase h2
    · refine LRU.get_fst_hit (e := ⟨f 1, g 1⟩) ?_ ?_
      · refine List.mem_cons.2 (Or.inr ?_)
        rw [hnd.mem_erase_iff]
        refine ⟨?_, hmem1⟩
        intro hf
        have := hI 0 1 (by omega) (by omega) (by simpa using hf)
        omega
      · rw [findKey_cons_ne (fun hf => hne1N1 hf.symm)]
        exact findKey_cons_self rfl _
    · intro i hi3 hiN
      have hmemi : f i ∈ f (n + 2 + 1) :: (descK f (n + 2)).erase (f 2) := by
        by_cases hiN1 : i = n + 2 + 1
        · subst hiN1
          simp
        · refine List.mem_cons.2 (Or.inr ?_)
          rw [hnd.mem_erase_iff]
          refine ⟨?_, mem_descK.2 ⟨i, by omega, by omega, rfl⟩⟩
          intro hf
          have := hI (i - 1) 1 (by omega) (by omega)
            (by rw [Nat.sub_add_cancel (by omega : 1 ≤ i)]; exact hf)
          omega
      refine LRU.get_fst_hit (e := ⟨f i, g i⟩) hmemi ?_
      by_cases hiN1 : i = n + 2 + 1
      · subst hiN1
        exact findKey_cons_self rfl _
      · rw [findKey_cons_ne]
        · rw [findKey_cons_ne]
          · have hres := findKey_descE
              (f := fun j => f (j + 2)) (g := fun j => g (j + 2)) (n := n) (i := i - 2)
              (fun a b ha hb h => by
                have := hI (a + 2) (b + 2) (by omega) (by omega) h
                omega)
              (by omega) (by omega)
            simp only [] at hres
            have hieq : i - 2 + 2 = i := by omega
            rw [hieq] at hres
            exact hres
          · intro hf
            have := hI 0 (i - 1) (by omega) (by omega)
              (by rw [Nat.sub_add_cancel (by omega : 1 ≤ i)]; exact hf)
            omega
        · intro hf
          have := hI (n + 2) (i - 1) (by omega) (by omega)
            (by rw [Nat.sub_add_cancel (by omega : 1 ≤ i)]; exact hf)
          omega

/-- C6 witness at N = 2 with keys 1, 2, 3 and values 10, 20, 30. -/
theorem c6_lru_eviction_order_witness :
    (((LRU.addSeq (fun i => i) (fun i => 10 * i) 2 (LRU.lNew 2)).add 3 30).get
        1).1 = none ∧
    (((LRU.addSeq (fun i => i) (fun i => 10 * i) 2 (LRU.lNew 2)).add 3 30).get
        3).1 = some 30 ∧
    ((((LRU.addSeq (fun i => i) (fun i => 10 * i) 2 (LRU.lNew 2)).get 1).2.add
        3 30).get 2).1 = none ∧
    ((((LRU.addSeq (fun i => i) (fun i => 10 * i) 2 (LRU.lNew 2)).get 1).2.add
        3 30).get 1).1 = some 10 ∧
    ((((LRU.addSeq (fun i => i) (fun i => 10 * i) 2 (LRU.lNew 2)).get 1).2.add
        3 30).get 3).1 = some 30 := by
  have h := c6_lru_eviction_order 2 (fun i => i) (fun i => 10 * i)
    (by decide) (by decide)
  exact ⟨h.1.1, h.1.2 3 (by decide) (by decide), (h.2 (by decide)).1,
    (h.2 (by decide)).2.1, (h.2 (by decide)).2.2 3 (by decide) (by decide)⟩
